import Mathlib

/-!
Shallow embedding of the Leontief input-output matrix engine of this
repository (`services/matrix_service.py`, `services/io_service.py`,
`validators/io_validators.py`) and proofs about the claims of its
specification.

Modelling conventions:
* pandas `DataFrame` cells are `Option ℚ`: `some q` is a finite float,
  `none` is IEEE `NaN` (introduced by `reindex` for missing row labels).
  Exact rational arithmetic stands in for float arithmetic.
* pandas labels are either strings (labelled data) or integers
  (`RangeIndex`, produced by `MatrixService.from_lists`); the sum type
  `Label` keeps the two apart, since in Python `"0" == 0` is `False` for
  membership tests such as `sector in df.index`.
* `numpy.linalg.inv` is modelled by an executable exact inverse
  (`npInvRows`, via `Matrix.det`/`Matrix.adjugate` over `ℚ`) that fails
  exactly on non-invertible input, mirroring `LinAlgError`; a `NaN`-bearing
  or non-square input is also modelled as failure.
* Python instance-field mutation is modelled by explicit state passing:
  each method takes and returns a `MatrixService` record.  The record
  carries one extra ghost field `inv_calls`, a counter incremented each
  time the matrix inversion routine is actually invoked, used to state
  the at-most-one-inversion sharing property.
* Raised exceptions are modelled with `Except`.
-/

namespace LeontiefModel

/-- A pandas axis label: a string label or an integer `RangeIndex` position.
In Python a string never compares equal to an integer label. -/
inductive Label where
  | str (s : String)
  | num (n : Nat)
deriving DecidableEq, Repr

/-- A pandas `DataFrame`: row labels, column labels, and a 2-D array of
cells, where `none` models an IEEE `NaN` cell. -/
structure Df where
  rowLabels : List Label
  colLabels : List Label
  data : List (List (Option ℚ))
deriving DecidableEq, Repr

/-- A `DataFrame` known to hold only finite numbers (used for the cached
Leontief inverse, which `numpy.linalg.inv` returns as a plain float
matrix). -/
structure DfQ where
  rowLabels : List Label
  colLabels : List Label
  data : List (List ℚ)
deriving DecidableEq, Repr

/-- A pandas `Series` with labels (used for the `total_final_use` series). -/
structure Ser where
  labels : List Label
  vals : List ℚ
deriving DecidableEq, Repr

/-- pandas `row.sum()` with the default `skipna=True`: `NaN` cells are
skipped, an all-`NaN` (or empty) row sums to `0`. -/
def pdSum (r : List (Option ℚ)) : ℚ :=
  (r.map (fun c => c.getD 0)).sum

/-- Cell access, `NaN` outside the stored array. -/
def Df.cell (df : Df) (i j : Nat) : Option ℚ :=
  (df.data.getD i []).getD j none

/-- Cell access for a finite frame; `0` outside the stored array. -/
def DfQ.cell (df : DfQ) (i j : Nat) : ℚ :=
  (df.data.getD i []).getD j 0

/-- `pd.concat([a, b], axis=1)` in the row-aligned case used by the code
(the engine reindexes `b` to `a`'s index first): column labels are
appended, rows are concatenated pointwise. -/
def hconcat (a b : Df) : Df :=
  { rowLabels := a.rowLabels
    colLabels := a.colLabels ++ b.colLabels
    data := List.zipWith (· ++ ·) a.data b.data }

/-- `df.reindex(labels)` on the row axis: rows of matched labels are kept
(first occurrence), rows for labels absent from `df` become all-`NaN`. -/
def reindexDf (df : Df) (labels : List Label) : Df :=
  { rowLabels := labels
    colLabels := df.colLabels
    data := labels.map (fun l =>
      match df.rowLabels.findIdx? (· = l) with
      | some i => df.data.getD i (List.replicate df.colLabels.length none)
      | none => List.replicate df.colLabels.length none) }

/-- `df.at[sector, demand] = value`, guarded as in the source by
`sector in df.index and demand in df.columns`: sets the cell when both
labels are present (first occurrence), otherwise leaves the frame
unchanged. -/
def setCell (m : Df) (sector demand : Label) (v : ℚ) : Df :=
  match m.rowLabels.findIdx? (· = sector), m.colLabels.findIdx? (· = demand) with
  | some i, some j => { m with data := m.data.set i ((m.data.getD i []).set j (some v)) }
  | _, _ => m

/-- Extracts a square all-finite `n × n` rational matrix from raw cell
rows; fails when the array is ragged, non-square, or holds a `NaN`. -/
def allSomeSquare? (lm : List (List (Option ℚ))) : Option (List (List ℚ)) :=
  lm.mapM (fun r => if r.length = lm.length then r.mapM (fun c => c) else none)

/-- Square rational matrix from list rows (`0` outside the array). -/
def matOfRows (n : Nat) (rows : List (List ℚ)) : Matrix (Fin n) (Fin n) ℚ :=
  Matrix.of fun i j => (rows.getD i []).getD j 0

/-- List rows from a square rational matrix. -/
def rowsOfMat {n : Nat} (M : Matrix (Fin n) (Fin n) ℚ) : List (List ℚ) :=
  (List.finRange n).map fun i => (List.finRange n).map fun j => M i j

/-- Model of `numpy.linalg.inv` on raw cell rows: returns the exact inverse
when the input is a square all-finite invertible matrix, fails otherwise
(`LinAlgError` on singular input; non-square or `NaN` input is likewise
modelled as failure). -/
def npInvRows (lm : List (List (Option ℚ))) : Option (List (List ℚ)) :=
  match allSomeSquare? lm with
  | none => none
  | some rows =>
    let n := rows.length
    let M := matOfRows n rows
    if M.det = 0 then none
    else some (rowsOfMat (M.det⁻¹ • M.adjugate))

/-- `(identity n) - A` on raw cell rows, positional (the code builds the
identity with exactly `A`'s labels, so pandas alignment is positional);
`NaN` propagates. -/
def idMinusRows (rows : List (List (Option ℚ))) : List (List (Option ℚ)) :=
  let n := rows.length
  (List.range n).map fun i => (List.range n).map fun j =>
    ((rows.getD i []).getD j none).map (fun a => (if i = j then (1 : ℚ) else 0) - a)

/-- numpy dot product of a finite row with a vector, summed over the
vector's index range (`numpy` requires conformal shapes; the claimsates
supply them). -/
def dotL (r : List ℚ) (y : List ℚ) : ℚ :=
  (List.ofFn (fun i : Fin y.length => r.getD i 0 * y.get i)).sum

/-- `L.values @ y` for a finite matrix and a finite vector. -/
def listMatVec (rows : List (List ℚ)) (y : List ℚ) : List ℚ :=
  rows.map (fun r => dotL r y)

/-- The multipliers dictionary built by `get_economic_multipliers`. -/
structure Mults where
  output_multipliers : List ℚ
  type_i_multipliers : List ℚ
  matrix_shape : Nat × Nat
deriving DecidableEq, Repr

/-- `np.sum(matrix, axis=0)`: column sums of a rectangular matrix. -/
def colSums (rows : List (List ℚ)) : List ℚ :=
  (List.range ((rows.headD []).length)).map fun j => (rows.map (fun r => r.getD j 0)).sum

/--
The engine state: the two stored frames and the four lazily cached
artifacts of `MatrixService.__init__`.  `inv_calls` is a ghost counter of
actual `numpy.linalg.inv` invocations (not a field of the Python object),
used to express the inversion-sharing property.  The redundant numpy
copies `ic_data`/`fd_data` of the Python object are omitted: no modelled
code path reads them.
-/
structure MatrixService where
  ic_df : Df
  fd_df : Df
  io_matrix_cache : Option Df
  technical_coefficients_cache : Option Df
  leontief_inverse_cache : Option DfQ
  economic_multipliers_cache : Option Mults
  inv_calls : Nat
deriving DecidableEq, Repr

/-- `MatrixService.__init__` after validation: all caches empty.
`_validate_matrices` raises unless the two frames have equal row counts;
the dtype check cannot fail in this model because cells are numbers by
construction (`NaN` is a float and passes the Python dtype check too). -/
def MatrixService.make (ic fd : Df) : Except Unit MatrixService :=
  if ic.data.length = fd.data.length then
    .ok { ic_df := ic, fd_df := fd, io_matrix_cache := none,
          technical_coefficients_cache := none, leontief_inverse_cache := none,
          economic_multipliers_cache := none, inv_calls := 0 }
  else .error ()

/-- `pd.DataFrame(list_of_lists)`: `RangeIndex` labels on both axes
(column count is the longest row; short rows are padded with `NaN`,
as pandas does). -/
def dfOfLists (ll : List (List ℚ)) : Df :=
  let ncols := (ll.map List.length).foldr max 0
  { rowLabels := (List.range ll.length).map Label.num
    colLabels := (List.range ncols).map Label.num
    data := ll.map (fun r => r.map some ++ List.replicate (ncols - r.length) none) }

/-- `MatrixService.from_lists`. -/
def MatrixService.from_lists (ic fd : List (List ℚ)) : Except Unit MatrixService :=
  MatrixService.make (dfOfLists ic) (dfOfLists fd)

/-- `get_io_matrix`: on a cache miss, reindexes the stored final-demand
frame to the consumption frame's row labels when the two row-label
sequences differ (this reassigns `self.fd_df`, a lasting state change),
concatenates column-wise, and caches the result. -/
def get_io_matrix (s : MatrixService) : MatrixService × Df :=
  match s.io_matrix_cache with
  | some m => (s, m)
  | none =>
    let fd2 := if s.ic_df.rowLabels = s.fd_df.rowLabels then s.fd_df
               else reindexDf s.fd_df s.ic_df.rowLabels
    let io := hconcat s.ic_df fd2
    ({ s with fd_df := fd2, io_matrix_cache := some io }, io)

/-- `get_technical_coefficients`: combined-matrix row sums with zero
replaced by one, then the intermediate-consumption block divided row-wise
(pandas `div(..., axis=0)`: cell `(i,j)` is divided by the row-`i` total).
Cached. -/
def get_technical_coefficients (s : MatrixService) : MatrixService × Df :=
  match s.technical_coefficients_cache with
  | some m => (s, m)
  | none =>
    let p := get_io_matrix s
    let io := p.2
    let n := p.1.ic_df.colLabels.length
    let total := (io.data.map pdSum).map (fun x => if x = 0 then 1 else x)
    let icPart : Df := { rowLabels := io.rowLabels, colLabels := io.colLabels.take n,
                         data := io.data.map (fun r => r.take n) }
    let A : Df := { icPart with
                    data := List.zipWith (fun r t => r.map (Option.map (· / t))) icPart.data total }
    ({ p.1 with technical_coefficients_cache := some A }, A)

/-- `get_leontief_inverse`: inverts `I - A` (identity built with `A`'s
labels); on success wraps the result with `A`'s labels and caches it; on
failure (`LinAlgError`) re-raises, leaving the Leontief cache slot empty.
The ghost counter increments whenever the inversion routine runs. -/
def get_leontief_inverse (s : MatrixService) : MatrixService × Except Unit DfQ :=
  match s.leontief_inverse_cache with
  | some m => (s, .ok m)
  | none =>
    let p := get_technical_coefficients s
    let A := p.2
    let s2 := { p.1 with inv_calls := p.1.inv_calls + 1 }
    match npInvRows (idMinusRows A.data) with
    | some rows =>
      let L : DfQ := { rowLabels := A.rowLabels, colLabels := A.colLabels, data := rows }
      ({ s2 with leontief_inverse_cache := some L }, .ok L)
    | none => (s2, .error ())

/-- `get_economic_multipliers`: column sums of the Leontief inverse;
type-I multipliers are the same list. Cached. -/
def get_economic_multipliers (s : MatrixService) : MatrixService × Except Unit Mults :=
  match s.economic_multipliers_cache with
  | some m => (s, .ok m)
  | none =>
    match get_leontief_inverse s with
    | (s1, .error e) => (s1, .error e)
    | (s1, .ok L) =>
      let om := colSums L.data
      let m : Mults := { output_multipliers := om, type_i_multipliers := om,
                         matrix_shape := (L.data.length, (L.data.headD []).length) }
      ({ s1 with economic_multipliers_cache := some m }, .ok m)

/-- `get_final_demand_matrix`: returns (a copy of) the stored final-demand
frame; no state change. -/
def get_final_demand_matrix (s : MatrixService) : Df :=
  s.fd_df

/-- One entry of the `calculate_output_scenarios` result list.  The field
`scen` models the Python key `scenario` (1-based index). -/
structure ScenRes where
  scen : Nat
  final_demand : List (List (Option ℚ))
  total_output : List ℚ
  output_diff : List ℚ
deriving DecidableEq, Repr

/-- `calculate_output_scenarios`: obtains the (cached) Leontief inverse
once, then for each scenario frame takes its row-sum vector, multiplies by
the shared inverse, and subtracts the row sums of the stored final-demand
frame (`output_change` key, modelled by `output_diff`). -/
def calculate_output_scenarios (s : MatrixService) (fds : List Df) :
    MatrixService × Except Unit (List ScenRes) :=
  match get_leontief_inverse s with
  | (s1, .error e) => (s1, .error e)
  | (s1, .ok L) =>
    (s1, .ok ((List.range fds.length).map fun k =>
      let fd := fds.getD k ⟨[], [], []⟩
      let y := fd.data.map pdSum
      let out := listMatVec L.data y
      { scen := k + 1
        final_demand := fd.data
        total_output := out
        output_diff := List.zipWith (· - ·) out (s1.fd_df.data.map pdSum) }))

/-- `calculate_output_with_new_fd` applied to a 1-D numpy vector:
`leontief_inv.dot(y)` is `L.values @ y`, defined when the vector length
matches the inverse's column count. -/
def calculate_output_with_new_fd_vec (s : MatrixService) (y : List ℚ) :
    MatrixService × Except Unit (List ℚ) :=
  match get_leontief_inverse s with
  | (s1, .error e) => (s1, .error e)
  | (s1, .ok L) =>
    if L.colLabels.length = y.length then (s1, .ok (listMatVec L.data y))
    else (s1, .error ())

/-- pandas `L.dot(F)` for a finite matrix frame and a cell frame: requires
the column labels of `L` to coincide with the row labels of `F` (pandas
raises `ValueError` otherwise; the permuted-but-equal-as-sets case is not
exercised by any claim and is modelled as the aligned case only), and
propagates `NaN` through each dot product as numpy does. -/
def dfDot (a : DfQ) (b : Df) : Option Df :=
  if a.colLabels = b.rowLabels then
    some { rowLabels := a.rowLabels
           colLabels := b.colLabels
           data := a.data.map fun r =>
             (List.range b.colLabels.length).map fun j =>
               ((b.data.map (fun br : List (Option ℚ) => br.getD j none)).mapM (fun c => c)).map
                 (fun cq => dotL r cq) }
  else none

/-- `calculate_output_with_new_fd` applied to a labelled frame:
`leontief_inv.dot(new_final_demand)` with pandas label alignment. -/
def calculate_output_with_new_fd_df (s : MatrixService) (F : Df) :
    MatrixService × Except Unit Df :=
  match get_leontief_inverse s with
  | (s1, .error e) => (s1, .error e)
  | (s1, .ok L) =>
    match dfDot L F with
    | some O => (s1, .ok O)
    | none => (s1, .error ())

/-- Modelled from the spec: the reserved "total final use" sentinel
`TOTAL_FINAL_USE_COLUMN` lives in `core/constants.py`, which is not part
of the provided sources; its value is fixed to `"total_final_use"`, the
literal the sources themselves use for it (`io_service.py` renames the
derived series to `"total_final_use"`, and `io_validators.py` compares
`change.demand` against that same literal). -/
def TOTAL_FINAL_USE_COLUMN : String := "total_final_use"

/-- One scenario change entry `{sector, demand, value}`; request JSON
gives strings for the labels and a number for the value (the pydantic
`SectorChange` schema). -/
structure ChangeConf where
  sector : String
  demand : String
  value : ℚ
deriving DecidableEq, Repr

/-- Applies `df.at[sector, demand] = value` for each change whose labels
are both present, in order, as the loops of `get_fd_table` and
`get_total_final_use` do (absent labels are skipped without error). -/
def applyChanges (m : Df) (changes : List ChangeConf) : Df :=
  changes.foldl (fun acc c => setCell acc (.str c.sector) (.str c.demand) c.value) m

/-- `get_total_final_use`: fetches the cached combined IO matrix, applies
the changes to it in place (this mutates the cached frame itself — the
model writes the modified frame back into the cache slot), and returns the
row-sum series renamed `"total_final_use"`. -/
def get_total_final_use (s : MatrixService) (changes : List ChangeConf) :
    MatrixService × Ser :=
  let p := get_io_matrix s
  let io2 := applyChanges p.2 changes
  ({ p.1 with io_matrix_cache := some io2 },
   { labels := io2.rowLabels, vals := io2.data.map pdSum })

/-- `series.at[sector] = value` guarded by `sector in series.index`. -/
def setSer (ser : Ser) (sector : Label) (v : ℚ) : Ser :=
  match ser.labels.findIdx? (· = sector) with
  | some i => { ser with vals := ser.vals.set i v }
  | none => ser

/-- The series returned by `get_total_final_use`, as the single-column
frame `to_frame(TOTAL_FINAL_USE_COLUMN)`. -/
def serToDf (ser : Ser) : Df :=
  { rowLabels := ser.labels
    colLabels := [.str TOTAL_FINAL_USE_COLUMN]
    data := ser.vals.map (fun v => [some v]) }

/-- `pd.concat([fd, total_final_use], axis=1)`.  The aligned case
(identical row labels) is positional; the misaligned case (not exercised
by any claim) is abstracted as an all-`NaN` outer join. -/
def hconcatSer (fd : Df) (ser : Ser) : Df :=
  if fd.rowLabels = ser.labels then
    { rowLabels := fd.rowLabels
      colLabels := fd.colLabels ++ [.str TOTAL_FINAL_USE_COLUMN]
      data := List.zipWith (fun r v => r ++ [some v]) fd.data ser.vals }
  else
    { rowLabels := fd.rowLabels ++ ser.labels.filter (· ∉ fd.rowLabels)
      colLabels := fd.colLabels ++ [.str TOTAL_FINAL_USE_COLUMN]
      data := (fd.rowLabels ++ ser.labels.filter (· ∉ fd.rowLabels)).map
        (fun _ => List.replicate (fd.colLabels.length + 1) none) }

/-- Whether the batch is classified as a total-final-use change: the code
inspects only the first change's `demand` field. -/
def isTfuChange (changes : List ChangeConf) : Bool :=
  match changes with
  | [] => false
  | c :: _ => c.demand = TOTAL_FINAL_USE_COLUMN

/-- `get_fd_table(with_total_final_use, change_data, only_total_final_use)`:
starts from a copy of the stored final-demand frame; for a non-empty batch
not classified as a total-final-use change, applies each change whose
labels are present (absent labels are silently skipped); optionally
derives the total-final-use series (with the changes applied to the
combined matrix), overrides its entries for a total-final-use batch, and
returns either the series alone or the frame with the series appended. -/
def get_fd_table (s : MatrixService) (changes : List ChangeConf)
    (with_tfu only_tfu : Bool) : MatrixService × Df :=
  let isTfu := isTfuChange changes
  let fd1 := if changes ≠ [] ∧ ¬ isTfu then applyChanges s.fd_df changes else s.fd_df
  if with_tfu then
    let p := get_total_final_use s changes
    let tfu1 := if isTfu then
        changes.foldl (fun acc c => setSer acc (.str c.sector) c.value) p.2
      else p.2
    if only_tfu then (p.1, serToDf tfu1) else (p.1, hconcatSer fd1 tfu1)
  else (s, fd1)

/-- The classification returned by `check_change_fd_type`. -/
inductive FdChangeType where
  | total_final_use_change
  | component_change
deriving DecidableEq, Repr

/-- `check_change_fd_type`: raises on an empty batch, otherwise classifies
the whole batch by the first change's `demand` field alone. -/
def check_change_fd_type (changes : List ChangeConf) : Except Unit FdChangeType :=
  match changes with
  | [] => .error ()
  | c :: _ =>
    if c.demand = TOTAL_FINAL_USE_COLUMN then .ok .total_final_use_change
    else .ok .component_change

/-- `tech_coeffs.multiply(output.sum(axis=1), axis=0)`: each row of the
coefficient frame scaled by the corresponding row-sum of the output. -/
def multiplyRows (A : Df) (scale : List ℚ) : Df :=
  { A with data := List.zipWith (fun r t => r.map (Option.map (· * t))) A.data scale }

/-- `((output - changed_fd).div(changed_fd)) * 100` in the label-aligned
case: cellwise `(o - f) / f * 100`; a zero or `NaN` divisor cell yields a
non-finite float (`NaN`/`inf`), modelled as `none`.  The misaligned case
(not exercised by any claim) is abstracted as an all-`NaN` frame on the
output's labels. -/
def percentDf (O F : Df) : Df :=
  if O.rowLabels = F.rowLabels ∧ O.colLabels = F.colLabels then
    { rowLabels := O.rowLabels
      colLabels := O.colLabels
      data := List.zipWith (fun ro rf => List.zipWith (fun oc fc =>
          match oc, fc with
          | some o, some f => if f = 0 then none else some ((o - f) / f * 100)
          | _, _ => none) ro rf) O.data F.data }
  else
    { rowLabels := O.rowLabels, colLabels := O.colLabels,
      data := O.data.map (fun r => r.map (fun _ => none)) }

/-- The result dictionary of `IOService.calculate_output`. -/
structure CalcBundle where
  technical_coefficients : Df
  leontief_inverse : DfQ
  multipliers : Mults
  io_matrix : Df
  new_ic_matrix : Df
  changed_fd_with_tfu : Df
  new_output : Df
  changed_fd_in_perc : Df
deriving DecidableEq, Repr

/-- `IOService.calculate_output`.  The inner calls
`calculate_output_with_new_fd(use_fd=..., new_final_demand=...)` and
`calculate_output_with_new_fd(use_total_final_use=..., new_total_final_use=...)`
name a richer signature than `matrix_service.py` defines; modelled from
the spec (compute-output contract): the call applies the Leontief inverse
to the supplied frame — the component-wise changed final-demand frame, or
the single-column changed total-final-use frame. -/
def io_calculate_output (s : MatrixService) (changes : List ChangeConf) :
    MatrixService × Except Unit CalcBundle :=
  if changes = [] then (s, .error ()) else
  let pT := get_technical_coefficients s
  match get_leontief_inverse pT.1 with
  | (s2, .error e) => (s2, .error e)
  | (s2, .ok L) =>
    match get_economic_multipliers s2 with
    | (s3, .error e) => (s3, .error e)
    | (s3, .ok mults) =>
      let pF := get_fd_table s3 changes false false
      let pFT := get_fd_table pF.1 changes true false
      match check_change_fd_type changes with
      | .error e => (pFT.1, .error e)
      | .ok ty =>
        let pOut :=
          match ty with
          | .total_final_use_change =>
            let pTfu := get_fd_table pFT.1 changes true true
            calculate_output_with_new_fd_df pTfu.1 pTfu.2
          | .component_change =>
            calculate_output_with_new_fd_df pFT.1 pF.2
        match pOut with
        | (s5, .error e) => (s5, .error e)
        | (s5, .ok output) =>
          let pFin := get_io_matrix s5
          (pFin.1, .ok
            { technical_coefficients := pT.2
              leontief_inverse := L
              multipliers := mults
              io_matrix := pFin.2
              new_ic_matrix := multiplyRows pT.2 (output.data.map pdSum)
              changed_fd_with_tfu := pFT.2
              new_output := output
              changed_fd_in_perc := percentDf output pF.2 })

/-- The validation failures of `validators/io_validators.py`
(`ValidationError` messages mapped to constructors). -/
inductive VErr where
  | emptyChanges
  | negativeValue
  | duplicateCombination
  | mixedTypes
deriving DecidableEq, Repr

/-- The loop body of `validate_sector_changes`: checks each change for a
negative value and a duplicate `(sector, demand)` pair, and partitions the
batch into named-category changes and total-final-use changes. -/
def validateLoop : List ChangeConf → List (String × String) →
    List ChangeConf → List ChangeConf →
    Except VErr (List ChangeConf × List ChangeConf)
  | [], _, sc, tfu => .ok (sc, tfu)
  | c :: rest, seen, sc, tfu =>
    if c.value < 0 then .error .negativeValue
    else if (c.sector, c.demand) ∈ seen then .error .duplicateCombination
    else if c.demand = TOTAL_FINAL_USE_COLUMN then
      validateLoop rest ((c.sector, c.demand) :: seen) sc (tfu ++ [c])
    else
      validateLoop rest ((c.sector, c.demand) :: seen) (sc ++ [c]) tfu

/-- `validate_sector_changes`: empty-batch check, then the loop, then the
final guard `if not sector_changes and not total_final_use_changes`, whose
error message reads "Total final use and sector changes cannot be used
together". -/
def validate_sector_changes (changes : List ChangeConf) : Except VErr Bool :=
  if changes = [] then .error .emptyChanges
  else
    match validateLoop changes [] [] [] with
    | .error e => .error e
    | .ok (sc, tfu) =>
      if sc = [] ∧ tfu = [] then .error .mixedTypes else .ok true

/-! ### Specification-side definitions (for refutation of claims)

These two definitions follow the specification's words, not the source;
they exist to be compared with the source-derived definitions above. -/

/-- The technical-coefficient formula exactly as the specification words
it: cell `(i,j) = IC(i,j) / TotalOutput(j)`, where `TotalOutput(j)` is the
row sum of the combined IO matrix for sector `j`, with a zero total output
replaced by `1`. -/
def specTechCoeffCell (s : MatrixService) (i j : Nat) : Option ℚ :=
  let T := pdSum (((get_io_matrix s).2).data.getD j [])
  (s.ic_df.cell i j).map (fun v => v / (if T = 0 then 1 else T))

/-- The compute-output contract exactly as the specification words it:
`X = LeontiefInverse · y` where `y` is the row-sum vector of the supplied
final-demand matrix. -/
def specComputeOutput (L : DfQ) (F : Df) : List ℚ :=
  listMatVec L.data (F.data.map pdSum)

/-! ### Concrete instances

The 3-sector sample economy of `utils/sample_data.py` (also the concrete
scenario of the specification), a 2-sector economy whose sectors have
equal total output, a labelled 3-sector engine, a row-label-misaligned
engine, and a singular engine. -/

def sampleIC : List (List ℚ) := [[50, 200, 100], [100, 300, 150], [25, 150, 200]]

def sampleFD : List (List ℚ) := [[400], [500], [300]]

def rangeLabels3 : List Label := [.num 0, .num 1, .num 2]

/-- The engine `MatrixService.from_lists(sampleIC, sampleFD)` (see
`from_lists_sampleS` below). -/
def sampleS : MatrixService where
  ic_df := ⟨rangeLabels3, rangeLabels3,
    [[some 50, some 200, some 100], [some 100, some 300, some 150], [some 25, some 150, some 200]]⟩
  fd_df := ⟨rangeLabels3, [.num 0], [[some 400], [some 500], [some 300]]⟩
  io_matrix_cache := none
  technical_coefficients_cache := none
  leontief_inverse_cache := none
  economic_multipliers_cache := none
  inv_calls := 0

def sampleIO : Df :=
  ⟨rangeLabels3, [.num 0, .num 1, .num 2, .num 0],
   [[some 50, some 200, some 100, some 400],
    [some 100, some 300, some 150, some 500],
    [some 25, some 150, some 200, some 300]]⟩

def sampleA : Df :=
  ⟨rangeLabels3, rangeLabels3,
   [[some (1/15), some (4/15), some (2/15)],
    [some (2/21), some (2/7), some (1/7)],
    [some (1/27), some (2/9), some (8/27)]]⟩

/-- `I - A` for the sample engine, as a rational matrix. -/
def mSample : List (List ℚ) :=
  [[14/15, -4/15, -2/15], [-2/21, 5/7, -1/7], [-1/27, -2/9, 19/27]]

/-- The exact Leontief inverse of the sample engine. -/
def lSample : List (List ℚ) :=
  [[801/704, 21/40, 567/1760], [123/704, 63/40, 621/1760], [81/704, 21/40, 2727/1760]]

def sampleL : DfQ := ⟨rangeLabels3, rangeLabels3, lSample⟩

/-- The sample engine after `get_leontief_inverse` has run once. -/
def sampleWarm : MatrixService :=
  { sampleS with io_matrix_cache := some sampleIO,
                 technical_coefficients_cache := some sampleA,
                 leontief_inverse_cache := some sampleL,
                 inv_calls := 1 }

/-- A 2-sector engine whose two sectors both have total output `10`. -/
def eqS : MatrixService where
  ic_df := ⟨[.num 0, .num 1], [.num 0, .num 1], [[some 1, some 2], [some 2, some 1]]⟩
  fd_df := ⟨[.num 0, .num 1], [.num 0], [[some 7], [some 7]]⟩
  io_matrix_cache := none
  technical_coefficients_cache := none
  leontief_inverse_cache := none
  economic_multipliers_cache := none
  inv_calls := 0

def lEq : List (List ℚ) := [[90/77, 20/77], [20/77, 90/77]]

def mEq : List (List ℚ) := [[9/10, -1/5], [-1/5, 9/10]]

def eqL : DfQ := ⟨[.num 0, .num 1], [.num 0, .num 1], lEq⟩

def eqIO : Df :=
  ⟨[.num 0, .num 1], [.num 0, .num 1, .num 0],
   [[some 1, some 2, some 7], [some 2, some 1, some 7]]⟩

def eqA : Df :=
  ⟨[.num 0, .num 1], [.num 0, .num 1],
   [[some (1/10), some (1/5)], [some (1/5), some (1/10)]]⟩

def eqWarm : MatrixService :=
  { eqS with io_matrix_cache := some eqIO,
             technical_coefficients_cache := some eqA,
             leontief_inverse_cache := some eqL,
             inv_calls := 1 }

def secLabels : List Label := [.str "Agriculture", .str "Manufacturing", .str "Services"]

/-- The sample economy with string sector labels and one final-demand
category, as an engine built from labelled frames. -/
def sectorS : MatrixService where
  ic_df := ⟨secLabels, secLabels,
    [[some 50, some 200, some 100], [some 100, some 300, some 150], [some 25, some 150, some 200]]⟩
  fd_df := ⟨secLabels, [.str "final_demand"], [[some 400], [some 500], [some 300]]⟩
  io_matrix_cache := none
  technical_coefficients_cache := none
  leontief_inverse_cache := none
  economic_multipliers_cache := none
  inv_calls := 0

def sectorIO : Df :=
  ⟨secLabels, secLabels ++ [.str "final_demand"],
   [[some 50, some 200, some 100, some 400],
    [some 100, some 300, some 150, some 500],
    [some 25, some 150, some 200, some 300]]⟩

def sectorA : Df :=
  ⟨secLabels, secLabels,
   [[some (1/15), some (4/15), some (2/15)],
    [some (2/21), some (2/7), some (1/7)],
    [some (1/27), some (2/9), some (8/27)]]⟩

def sectorL : DfQ := ⟨secLabels, secLabels, lSample⟩

/-- The labelled engine after `get_leontief_inverse` has run once. -/
def sectorWarm : MatrixService :=
  { sectorS with io_matrix_cache := some sectorIO,
                 technical_coefficients_cache := some sectorA,
                 leontief_inverse_cache := some sectorL,
                 inv_calls := 1 }

/-- An engine whose final-demand frame is constructed with row labels
`["A", "C"]` while the consumption frame has row labels `["A", "B"]`. -/
def misS : MatrixService where
  ic_df := ⟨[.str "A", .str "B"], [.str "A", .str "B"], [[some 1, some 1], [some 1, some 1]]⟩
  fd_df := ⟨[.str "A", .str "C"], [.str "h"], [[some 4], [some 9]]⟩
  io_matrix_cache := none
  technical_coefficients_cache := none
  leontief_inverse_cache := none
  economic_multipliers_cache := none
  inv_calls := 0

/-- A 1-sector engine for which `I - A` is the zero matrix, so that the
Leontief inversion fails. -/
def singS : MatrixService where
  ic_df := ⟨[.num 0], [.num 0], [[some 1]]⟩
  fd_df := ⟨[.num 0], [.num 0], [[some 0]]⟩
  io_matrix_cache := none
  technical_coefficients_cache := none
  leontief_inverse_cache := none
  economic_multipliers_cache := none
  inv_calls := 0

/-- The mixed change batch of the specification's validation scenario:
one change targets the reserved total-final-use sentinel, the other a
named demand category. -/
def mixedBatch : List ChangeConf :=
  [⟨"Agriculture", TOTAL_FINAL_USE_COLUMN, 10⟩, ⟨"Services", "exports", 5⟩]

/-- A component change batch for the labelled engine. -/
def chg7 : List ChangeConf := [⟨"Agriculture", "final_demand", 600⟩]

/-- The sample engine after `get_technical_coefficients` has run once. -/
def sampleMid : MatrixService :=
  { sampleS with io_matrix_cache := some sampleIO,
                 technical_coefficients_cache := some sampleA }

/-- The labelled engine after `get_technical_coefficients` has run once. -/
def sectorMid : MatrixService :=
  { sectorS with io_matrix_cache := some sectorIO,
                 technical_coefficients_cache := some sectorA }

/-- The equal-output engine after `get_technical_coefficients`. -/
def eqMid : MatrixService :=
  { eqS with io_matrix_cache := some eqIO,
             technical_coefficients_cache := some eqA }

/-- The misaligned engine's final-demand frame after reindexing to the
consumption frame's row labels: the row for `"B"` is all-`NaN`. -/
def misFdRe : Df := ⟨[.str "A", .str "B"], [.str "h"], [[some 4], [none]]⟩

def misIO : Df :=
  ⟨[.str "A", .str "B"], [.str "A", .str "B", .str "h"],
   [[some 1, some 1, some 4], [some 1, some 1, none]]⟩

def misA : Df :=
  ⟨[.str "A", .str "B"], [.str "A", .str "B"],
   [[some (1/6), some (1/6)], [some (1/2), some (1/2)]]⟩

def mMis : List (List ℚ) := [[5/6, -1/6], [-1/2, 1/2]]

def lMis : List (List ℚ) := [[3/2, 1/2], [3/2, 5/2]]

def misL : DfQ := ⟨[.str "A", .str "B"], [.str "A", .str "B"], lMis⟩

/-- The misaligned engine after `get_technical_coefficients`. -/
def misMid : MatrixService :=
  { misS with fd_df := misFdRe,
              io_matrix_cache := some misIO,
              technical_coefficients_cache := some misA }

/-- The misaligned engine after `get_leontief_inverse`. -/
def misWarm : MatrixService :=
  { misMid with leontief_inverse_cache := some misL, inv_calls := 1 }

/-- The singular engine after `get_technical_coefficients`: `A = [[1]]`. -/
def singMid : MatrixService :=
  { singS with io_matrix_cache := some ⟨[.num 0], [.num 0, .num 0], [[some 1, some 0]]⟩,
               technical_coefficients_cache := some ⟨[.num 0], [.num 0], [[some 1]]⟩ }

/-- The misaligned engine right after its first `get_io_matrix`. -/
def misIoS : MatrixService :=
  { misS with fd_df := misFdRe, io_matrix_cache := some misIO }

/-- A scenario final-demand frame for the misaligned engine. -/
def scenFd : Df := ⟨[.str "A", .str "B"], [.str "g"], [[some 2], [some 2]]⟩

/-- A change whose sector label is absent from the labelled engine. -/
def chgUnknown : ChangeConf := ⟨"Mining", "exports", 5⟩

/-- The result bundle of `calculate_output` on the labelled warm engine
for the component change batch `chg7`. -/
def bundle7 : CalcBundle where
  technical_coefficients := sectorA
  leontief_inverse := sectorL
  multipliers := ⟨[1005/704, 21/8, 783/352], [1005/704, 21/8, 783/352], (3, 3)⟩
  io_matrix := ⟨secLabels, secLabels ++ [.str "final_demand"],
    [[some 50, some 200, some 100, some 600],
     [some 100, some 300, some 150, some 500],
     [some 25, some 150, some 200, some 300]]⟩
  new_ic_matrix := ⟨secLabels, secLabels,
    [[some (764/11), some (3056/11), some (1528/11)],
     [some (7320/77), some (21960/77), some (10980/77)],
     [some (2920/99), some (5840/33), some (23360/99)]]⟩
  changed_fd_with_tfu := ⟨secLabels, [.str "final_demand", .str "total_final_use"],
    [[some 600, some 950], [some 500, some 1050], [some 300, some 675]]⟩
  new_output := ⟨secLabels, [.str "final_demand"],
    [[some (11460/11)], [some (10980/11)], [some (8760/11)]]⟩
  changed_fd_in_perc := ⟨secLabels, [.str "final_demand"],
    [[some (810/11)], [some (1096/11)], [some (1820/11)]]⟩

/-- The labelled warm engine after `calculate_output` on `chg7`: the
cached combined matrix has been mutated in place by the change (its
final-demand column now reads 600), and the multipliers are cached. -/
def sector7End : MatrixService :=
  { sectorWarm with
    io_matrix_cache := some ⟨secLabels, secLabels ++ [.str "final_demand"],
      [[some 50, some 200, some 100, some 600],
       [some 100, some 300, some 150, some 500],
       [some 25, some 150, some 200, some 300]]⟩,
    economic_multipliers_cache :=
      some ⟨[1005/704, 21/8, 783/352], [1005/704, 21/8, 783/352], (3, 3)⟩ }

/-- A two-column final-demand frame for the equal-output engine. -/
def fd2cols : Df :=
  ⟨[.num 0, .num 1], [.num 0, .num 1], [[some 1, some 0], [some 0, some 0]]⟩

/-- `leontief_inv.dot(fd2cols)`: the full matrix product, a 2-by-2 frame. -/
def O4 : Df :=
  ⟨[.num 0, .num 1], [.num 0, .num 1], [[some (90/77), some 0], [some (20/77), some 0]]⟩

/-- The economic multipliers of the labelled sample engine: column sums of
its Leontief inverse. -/
def mults7 : Mults := ⟨[1005/704, 21/8, 783/352], [1005/704, 21/8, 783/352], (3, 3)⟩

/-- The labelled warm engine once the multipliers have been cached. -/
def sectorWarmM : MatrixService :=
  { sectorWarm with economic_multipliers_cache := some mults7 }

/-- The stored final-demand frame after applying `chg7`. -/
def fdChg7 : Df := ⟨secLabels, [.str "final_demand"], [[some 600], [some 500], [some 300]]⟩

/-- The cached combined matrix after the in-place mutation by `chg7`. -/
def io7 : Df := ⟨secLabels, secLabels ++ [.str "final_demand"],
  [[some 50, some 200, some 100, some 600],
   [some 100, some 300, some 150, some 500],
   [some 25, some 150, some 200, some 300]]⟩

/-- The output frame `leontief_inv.dot(fdChg7)`. -/
def newOut7 : Df := ⟨secLabels, [.str "final_demand"],
  [[some (11460/11)], [some (10980/11)], [some (8760/11)]]⟩

/-! ### Helper lemmas: list and sum bridges -/

theorem getD_range_map {α : Type} (f : Nat → α) (n i : Nat) (d : α) (h : i < n) :
    (((List.range n).map f).getD i d) = f i := by
  rw [List.getD_eq_getElem?_getD, List.getElem?_map]
  simp [List.getElem?_range h]

theorem getD_finRange_map {α : Type} {n : Nat} (f : Fin n → α) (i : Fin n) (d : α) :
    (((List.finRange n).map f).getD i d) = f i := by
  rw [List.getD_eq_getElem?_getD]
  rw [List.getElem?_map]
  have h1 : (List.finRange n)[(i : Nat)]? = some i := by
    rw [List.getElem?_eq_getElem (by simpa using i.isLt)]
    simp
  rw [h1]
  rfl

theorem listSum_eq_finSum (r : List ℚ) (m : Nat) (h : r.length = m) :
    r.sum = ∑ j : Fin m, r.getD j 0 := by
  subst h
  conv_lhs => rw [← List.ofFn_get r]
  rw [List.sum_ofFn]
  refine Finset.sum_congr rfl fun j _ => ?_
  rw [List.getD_eq_getElem r 0 (by simpa using j.isLt)]
  simp

theorem dotL_eq (r y : List ℚ) (m : Nat) (h : y.length = m) :
    dotL r y = ∑ j : Fin m, r.getD j 0 * y.getD j 0 := by
  subst h
  rw [dotL, List.sum_ofFn]
  refine Finset.sum_congr rfl fun j _ => ?_
  rw [List.getD_eq_getElem y 0 (by simpa using j.isLt)]
  simp

theorem pdSum_append (a b : List (Option ℚ)) : pdSum (a ++ b) = pdSum a + pdSum b := by
  simp [pdSum]

theorem pdSum_map_some (r : List ℚ) : pdSum (r.map some) = r.sum := by
  simp [pdSum, List.map_map, Function.comp_def]

theorem pdSum_replicate_none (k : Nat) : pdSum (List.replicate k none) = 0 := by
  simp [pdSum]

theorem pdSum_padded (r : List ℚ) (k : Nat) :
    pdSum (r.map some ++ List.replicate k none) = r.sum := by
  rw [pdSum_append, pdSum_map_some, pdSum_replicate_none, add_zero]

/-! ### Helper lemmas: matrix/list conversions -/

theorem rowsOfMat_length {n : Nat} (M : Matrix (Fin n) (Fin n) ℚ) :
    (rowsOfMat M).length = n := by
  simp [rowsOfMat]

theorem rowsOfMat_row_length {n : Nat} (M : Matrix (Fin n) (Fin n) ℚ) :
    ∀ r ∈ rowsOfMat M, r.length = n := by
  intro r hr
  simp only [rowsOfMat, List.mem_map] at hr
  obtain ⟨i, _, rfl⟩ := hr
  simp

theorem rowsOfMat_getD {n : Nat} (M : Matrix (Fin n) (Fin n) ℚ) (i j : Fin n) :
    (((rowsOfMat M).getD i []).getD j 0) = M i j := by
  rw [rowsOfMat, getD_finRange_map (fun i => (List.finRange n).map fun j => M i j) i []]
  exact getD_finRange_map (fun j => M i j) j 0

theorem matOfRows_rowsOfMat {n : Nat} (M : Matrix (Fin n) (Fin n) ℚ) :
    matOfRows n (rowsOfMat M) = M := by
  ext i j
  show (((rowsOfMat M).getD i []).getD j 0) = M i j
  exact rowsOfMat_getD M i j

theorem rowsOfMat_matOfRows (n : Nat) (rows : List (List ℚ))
    (h1 : rows.length = n) (h2 : ∀ r ∈ rows, r.length = n) :
    rowsOfMat (matOfRows n rows) = rows := by
  apply List.ext_getElem
  · simp [rowsOfMat, h1]
  · intro i hi hi2
    have hin : i < n := by simpa [rowsOfMat] using hi
    apply List.ext_getElem
    · have := h2 (rows[i]) (List.getElem_mem hi2)
      simp [rowsOfMat, List.getElem_map, List.getElem_finRange, this]
    · intro j hj hj2
      simp only [rowsOfMat, List.getElem_map, List.getElem_finRange, matOfRows,
        Matrix.of_apply, Fin.coe_cast]
      rw [List.getD_eq_getElem rows [] (by omega), List.getD_eq_getElem (rows[i]) 0 hj2]

/-! ### Helper lemmas: `allSomeSquare?` and `npInvRows` -/

theorem mapM_id_nil : (([] : List (Option ℚ)).mapM (fun c => c)) = some [] := rfl

theorem mapM_id_eq_some {r : List (Option ℚ)} {q : List ℚ} :
    r.mapM (fun c => c) = some q ↔ r = q.map some := by
  induction r generalizing q with
  | nil => rw [mapM_id_nil]; cases q <;> simp
  | cons a t ih =>
    rw [List.mapM_cons]
    cases a with
    | none => cases q <;> simp [Option.bind_eq_bind]
    | some v =>
      cases q with
      | nil =>
        simp only [Option.bind_eq_bind, Option.some_bind, List.map_nil]
        simp [Option.bind_eq_some]
      | cons b qt =>
        simp only [Option.bind_eq_bind, Option.some_bind, List.map_cons]
        simp only [Option.bind_eq_some, Option.some_inj, List.cons_eq_cons, ih]
        aesop

theorem mapM_rect_eq_some {n : Nat} :
    ∀ {lm : List (List (Option ℚ))} {rows : List (List ℚ)},
    lm.mapM (fun r => if r.length = n then r.mapM (fun c => c) else none) = some rows →
    lm = rows.map (fun r => r.map some) ∧ ∀ r ∈ rows, r.length = n := by
  intro lm
  induction lm with
  | nil =>
    intro rows h
    have hnil : (([] : List (List (Option ℚ))).mapM
        (fun r => if r.length = n then r.mapM (fun c => c) else none)) = some [] := rfl
    rw [hnil] at h
    simp only [Option.some_inj] at h
    simp [← h]
  | cons a t ih =>
    intro rows h
    rw [List.mapM_cons] at h
    simp only [Option.bind_eq_bind, Option.bind_eq_some] at h
    obtain ⟨b, hb, bs, hbs, hrows⟩ := h
    split at hb
    case isFalse => exact absurd hb (by simp)
    case isTrue hlen =>
      have hab : a = b.map some := mapM_id_eq_some.mp hb
      obtain ⟨ht, hall⟩ := ih hbs
      have hrows2 : b :: bs = rows := by simpa using hrows
      subst hrows2
      refine ⟨by simp [hab, ht], ?_⟩
      intro r hr
      rcases List.mem_cons.mp hr with rfl | hr2
      · rw [← hlen, hab, List.length_map]
      · exact hall r hr2

theorem mapM_rect_of_shape {n : Nat} :
    ∀ {rows : List (List ℚ)}, (∀ r ∈ rows, r.length = n) →
    (rows.map (fun r => r.map some)).mapM
      (fun r => if r.length = n then r.mapM (fun c => c) else none) = some rows := by
  intro rows
  induction rows with
  | nil => intro _; rfl
  | cons a t ih =>
    intro h
    have ha : a.length = n := h a (by simp)
    simp only [List.map_cons, List.mapM_cons, Option.bind_eq_bind]
    rw [if_pos (by simpa using ha)]
    rw [mapM_id_eq_some.mpr rfl]
    rw [ih (fun r hr => h r (by simp [hr]))]
    rfl

theorem allSomeSquare?_eq_some {lm : List (List (Option ℚ))} {rows : List (List ℚ)}
    (h : allSomeSquare? lm = some rows) :
    lm = rows.map (fun r => r.map some) ∧ rows.length = lm.length ∧
      ∀ r ∈ rows, r.length = lm.length := by
  obtain ⟨h1, h2⟩ := mapM_rect_eq_some h
  exact ⟨h1, by simp [h1], h2⟩

theorem allSomeSquare?_of_shape {rows : List (List ℚ)}
    (h : ∀ r ∈ rows, r.length = rows.length) :
    allSomeSquare? (rows.map (fun r => r.map some)) = some rows := by
  have := mapM_rect_of_shape (n := rows.length) h
  simpa [allSomeSquare?] using this

theorem npInvRows_eq_some_of {lm : List (List (Option ℚ))} {rows L0 : List (List ℚ)}
    (hs : allSomeSquare? lm = some rows)
    (hlen : L0.length = rows.length) (hrow : ∀ r ∈ L0, r.length = rows.length)
    (h1 : matOfRows rows.length rows * matOfRows rows.length L0 = 1)
    (h2 : matOfRows rows.length L0 * matOfRows rows.length rows = 1) :
    npInvRows lm = some L0 := by
  have hdet : (matOfRows rows.length rows).det ≠ 0 := by
    have := Matrix.isUnit_det_of_left_inverse h2
    exact isUnit_iff_ne_zero.mp this
  have hinv : (matOfRows rows.length rows).det⁻¹ • (matOfRows rows.length rows).adjugate
      = matOfRows rows.length L0 := by
    rw [← Ring.inverse_eq_inv, ← Matrix.inv_def]
    exact Matrix.inv_eq_right_inv h1
  rw [npInvRows, hs]
  simp only [if_neg hdet]
  rw [hinv, rowsOfMat_matOfRows rows.length L0 hlen hrow]

theorem npInvRows_eq_none_of {lm : List (List (Option ℚ))} {rows : List (List ℚ)}
    (hs : allSomeSquare? lm = some rows)
    (hdet : (matOfRows rows.length rows).det = 0) :
    npInvRows lm = none := by
  rw [npInvRows, hs]
  simp [hdet]

theorem npInvRows_spec {lm : List (List (Option ℚ))} {L0 : List (List ℚ)}
    (h : npInvRows lm = some L0) :
    ∃ rows, allSomeSquare? lm = some rows ∧
      L0.length = rows.length ∧ (∀ r ∈ L0, r.length = rows.length) ∧
      matOfRows rows.length rows * matOfRows rows.length L0 = 1 ∧
      matOfRows rows.length L0 * matOfRows rows.length rows = 1 := by
  rw [npInvRows] at h
  rcases hs : allSomeSquare? lm with _ | rows
  · rw [hs] at h; exact absurd h (by simp)
  · rw [hs] at h
    simp only at h
    split at h
    · exact absurd h (by simp)
    case isFalse hdet =>
      simp only [Option.some_inj] at h
      have hunit : IsUnit (matOfRows rows.length rows).det := isUnit_iff_ne_zero.mpr hdet
      have hinv : (matOfRows rows.length rows).det⁻¹ • (matOfRows rows.length rows).adjugate
          = (matOfRows rows.length rows)⁻¹ := by
        rw [Matrix.inv_def, Ring.inverse_eq_inv]
      refine ⟨rows, rfl, ?_, ?_, ?_, ?_⟩
      · rw [← h, rowsOfMat_length]
      · rw [← h]; exact rowsOfMat_row_length _
      · rw [← h, hinv, matOfRows_rowsOfMat]
        exact Matrix.mul_nonsing_inv _ hunit
      · rw [← h, hinv, matOfRows_rowsOfMat]
        exact Matrix.nonsing_inv_mul _ hunit

/-! ### Concrete evaluations: technical coefficients and Leontief inverses -/

theorem htech_sample : get_technical_coefficients sampleS = (sampleMid, sampleA) := by
  norm_num [get_technical_coefficients, get_io_matrix, hconcat, pdSum, sampleS, sampleIO,
    sampleA, sampleMid, rangeLabels3]

theorem htech_sector : get_technical_coefficients sectorS = (sectorMid, sectorA) := by
  norm_num [get_technical_coefficients, get_io_matrix, hconcat, pdSum, sectorS, sectorIO,
    sectorA, sectorMid, secLabels]

theorem htech_eq : get_technical_coefficients eqS = (eqMid, eqA) := by
  norm_num [get_technical_coefficients, get_io_matrix, hconcat, pdSum, eqS, eqIO, eqA, eqMid]

theorem htech_mis : get_technical_coefficients misS = (misMid, misA) := by
  norm_num +decide [get_technical_coefficients, get_io_matrix, hconcat, pdSum, misS, misIO,
    misA, misMid, misFdRe, reindexDf, List.findIdx?]

theorem htech_sing : get_technical_coefficients singS = (singMid, ⟨[.num 0], [.num 0], [[some 1]]⟩) := by
  norm_num [get_technical_coefficients, get_io_matrix, hconcat, pdSum, singS, singMid]

theorem prodSample1 : matOfRows 3 mSample * matOfRows 3 lSample = 1 := by
  ext i j
  fin_cases i <;> fin_cases j <;>
    simp [Matrix.mul_apply, Fin.sum_univ_three, matOfRows, mSample, lSample,
      Matrix.one_apply] <;> norm_num

theorem prodSample2 : matOfRows 3 lSample * matOfRows 3 mSample = 1 := by
  ext i j
  fin_cases i <;> fin_cases j <;>
    simp [Matrix.mul_apply, Fin.sum_univ_three, matOfRows, mSample, lSample,
      Matrix.one_apply] <;> norm_num

theorem prodEq1 : matOfRows 2 mEq * matOfRows 2 lEq = 1 := by
  ext i j
  fin_cases i <;> fin_cases j <;>
    simp [Matrix.mul_apply, Fin.sum_univ_two, matOfRows, mEq, lEq, Matrix.one_apply] <;> norm_num

theorem prodEq2 : matOfRows 2 lEq * matOfRows 2 mEq = 1 := by
  ext i j
  fin_cases i <;> fin_cases j <;>
    simp [Matrix.mul_apply, Fin.sum_univ_two, matOfRows, mEq, lEq, Matrix.one_apply] <;> norm_num

theorem prodMis1 : matOfRows 2 mMis * matOfRows 2 lMis = 1 := by
  ext i j
  fin_cases i <;> fin_cases j <;>
    simp [Matrix.mul_apply, Fin.sum_univ_two, matOfRows, mMis, lMis, Matrix.one_apply] <;> norm_num

theorem prodMis2 : matOfRows 2 lMis * matOfRows 2 mMis = 1 := by
  ext i j
  fin_cases i <;> fin_cases j <;>
    simp [Matrix.mul_apply, Fin.sum_univ_two, matOfRows, mMis, lMis, Matrix.one_apply] <;> norm_num

theorem hinv_sample : npInvRows (idMinusRows sampleA.data) = some lSample := by
  have hlm : idMinusRows sampleA.data = mSample.map (fun r => r.map some) := by
    norm_num [idMinusRows, sampleA, mSample, List.range_succ]
  rw [hlm]
  exact npInvRows_eq_some_of (allSomeSquare?_of_shape (by intro r hr; fin_cases hr <;> rfl))
    (by rfl) (by intro r hr; fin_cases hr <;> rfl) prodSample1 prodSample2

theorem hinv_sector : npInvRows (idMinusRows sectorA.data) = some lSample := by
  have hlm : idMinusRows sectorA.data = mSample.map (fun r => r.map some) := by
    norm_num [idMinusRows, sectorA, mSample, List.range_succ]
  rw [hlm]
  exact npInvRows_eq_some_of (allSomeSquare?_of_shape (by intro r hr; fin_cases hr <;> rfl))
    (by rfl) (by intro r hr; fin_cases hr <;> rfl) prodSample1 prodSample2

theorem hinv_eq : npInvRows (idMinusRows eqA.data) = some lEq := by
  have hlm : idMinusRows eqA.data = mEq.map (fun r => r.map some) := by
    norm_num [idMinusRows, eqA, mEq, List.range_succ]
  rw [hlm]
  exact npInvRows_eq_some_of (allSomeSquare?_of_shape (by intro r hr; fin_cases hr <;> rfl))
    (by rfl) (by intro r hr; fin_cases hr <;> rfl) prodEq1 prodEq2

theorem hinv_mis : npInvRows (idMinusRows misA.data) = some lMis := by
  have hlm : idMinusRows misA.data = mMis.map (fun r => r.map some) := by
    norm_num [idMinusRows, misA, mMis, List.range_succ]
  rw [hlm]
  exact npInvRows_eq_some_of (allSomeSquare?_of_shape (by intro r hr; fin_cases hr <;> rfl))
    (by rfl) (by intro r hr; fin_cases hr <;> rfl) prodMis1 prodMis2

theorem hinv_sing : npInvRows (idMinusRows [[some (1 : ℚ)]]) = none := by
  have hlm : idMinusRows [[some (1 : ℚ)]] = [[(0 : ℚ)]].map (fun r => r.map some) := by
    norm_num [idMinusRows, List.range_succ]
  rw [hlm]
  refine npInvRows_eq_none_of (allSomeSquare?_of_shape (by intro r hr; fin_cases hr <;> rfl)) ?_
  have : matOfRows 1 [[(0 : ℚ)]] = 0 := by
    ext i j
    fin_cases i <;> fin_cases j <;> simp [matOfRows]
  show (matOfRows ([[(0:ℚ)]].length) [[(0:ℚ)]]).det = 0
  rw [show ([[(0:ℚ)]].length) = 1 from rfl, this]
  simp

/-- On a cache miss, `get_leontief_inverse` computes the coefficients,
increments the ghost inversion counter, and caches or fails according to
the inversion routine's answer. -/
theorem gli_eq_of (s sMid : MatrixService) (A : Df) (rows : List (List ℚ))
    (hc : s.leontief_inverse_cache = none)
    (htech : get_technical_coefficients s = (sMid, A))
    (hinv : npInvRows (idMinusRows A.data) = some rows) :
    get_leontief_inverse s =
      ({ sMid with inv_calls := sMid.inv_calls + 1,
                   leontief_inverse_cache := some ⟨A.rowLabels, A.colLabels, rows⟩ },
       .ok ⟨A.rowLabels, A.colLabels, rows⟩) := by
  simp only [get_leontief_inverse, hc, htech, hinv]

theorem gli_err_of (s sMid : MatrixService) (A : Df)
    (hc : s.leontief_inverse_cache = none)
    (htech : get_technical_coefficients s = (sMid, A))
    (hinv : npInvRows (idMinusRows A.data) = none) :
    get_leontief_inverse s = ({ sMid with inv_calls := sMid.inv_calls + 1 }, .error ()) := by
  simp only [get_leontief_inverse, hc, htech, hinv]

theorem gli_sample : get_leontief_inverse sampleS = (sampleWarm, .ok sampleL) := by
  have h := gli_eq_of sampleS sampleMid sampleA lSample rfl htech_sample hinv_sample
  exact h

theorem gli_sector : get_leontief_inverse sectorS = (sectorWarm, .ok sectorL) := by
  have h := gli_eq_of sectorS sectorMid sectorA lSample rfl htech_sector hinv_sector
  exact h

theorem gli_eqS : get_leontief_inverse eqS = (eqWarm, .ok eqL) := by
  have h := gli_eq_of eqS eqMid eqA lEq rfl htech_eq hinv_eq
  exact h

theorem gli_mis : get_leontief_inverse misS = (misWarm, .ok misL) := by
  have h := gli_eq_of misS misMid misA lMis rfl htech_mis hinv_mis
  exact h

theorem gli_sing : get_leontief_inverse singS = ({ singMid with inv_calls := 1 }, .error ()) := by
  have h := gli_err_of singS singMid ⟨[.num 0], [.num 0], [[some 1]]⟩ rfl htech_sing hinv_sing
  exact h

theorem htech_misIoS : get_technical_coefficients misIoS = (misMid, misA) := by
  norm_num +decide [get_technical_coefficients, get_io_matrix, hconcat, pdSum, misIoS, misS,
    misIO, misA, misMid, misFdRe]

theorem gli_misIoS : get_leontief_inverse misIoS = (misWarm, .ok misL) := by
  have h := gli_eq_of misIoS misMid misA lMis rfl htech_misIoS hinv_mis
  exact h

/-! ### Frame lemmas: what each cached derivation does and does not touch -/

theorem gio_hit {s : MatrixService} {m : Df} (h : s.io_matrix_cache = some m) :
    get_io_matrix s = (s, m) := by
  simp only [get_io_matrix, h]

theorem gio_leontief (s : MatrixService) :
    (get_io_matrix s).1.leontief_inverse_cache = s.leontief_inverse_cache := by
  simp only [get_io_matrix]
  split <;> rfl

theorem gio_tech (s : MatrixService) :
    (get_io_matrix s).1.technical_coefficients_cache = s.technical_coefficients_cache := by
  simp only [get_io_matrix]
  split <;> rfl

theorem gio_mult (s : MatrixService) :
    (get_io_matrix s).1.economic_multipliers_cache = s.economic_multipliers_cache := by
  simp only [get_io_matrix]
  split <;> rfl

theorem gio_ic (s : MatrixService) : (get_io_matrix s).1.ic_df = s.ic_df := by
  simp only [get_io_matrix]
  split <;> rfl

theorem gio_inv_calls (s : MatrixService) : (get_io_matrix s).1.inv_calls = s.inv_calls := by
  simp only [get_io_matrix]
  split <;> rfl

theorem gio_cache_pop (s : MatrixService) :
    (get_io_matrix s).1.io_matrix_cache = some (get_io_matrix s).2 := by
  simp only [get_io_matrix]
  split
  case h_1 m heq => simpa using heq
  case h_2 => rfl

theorem gio_fd_aligned {s : MatrixService} (h : s.ic_df.rowLabels = s.fd_df.rowLabels) :
    (get_io_matrix s).1.fd_df = s.fd_df := by
  simp only [get_io_matrix]
  split
  · rfl
  · simp only [if_pos h]

theorem gtc_hit {s : MatrixService} {m : Df} (h : s.technical_coefficients_cache = some m) :
    get_technical_coefficients s = (s, m) := by
  simp only [get_technical_coefficients, h]

theorem gtc_leontief (s : MatrixService) :
    (get_technical_coefficients s).1.leontief_inverse_cache = s.leontief_inverse_cache := by
  simp only [get_technical_coefficients]
  split
  · rfl
  · exact gio_leontief s

theorem gtc_mult (s : MatrixService) :
    (get_technical_coefficients s).1.economic_multipliers_cache
      = s.economic_multipliers_cache := by
  simp only [get_technical_coefficients]
  split
  · rfl
  · exact gio_mult s

theorem gtc_ic (s : MatrixService) : (get_technical_coefficients s).1.ic_df = s.ic_df := by
  simp only [get_technical_coefficients]
  split
  · rfl
  · exact gio_ic s

theorem gtc_inv_calls (s : MatrixService) :
    (get_technical_coefficients s).1.inv_calls = s.inv_calls := by
  simp only [get_technical_coefficients]
  split
  · rfl
  · exact gio_inv_calls s

theorem gtc_cache_pop (s : MatrixService) :
    (get_technical_coefficients s).1.technical_coefficients_cache
      = some (get_technical_coefficients s).2 := by
  simp only [get_technical_coefficients]
  split
  case h_1 m heq => simpa using heq
  case h_2 => rfl

theorem gtc_io_pres {s : MatrixService} {io0 : Df} (h : s.io_matrix_cache = some io0) :
    (get_technical_coefficients s).1.io_matrix_cache = some io0 := by
  simp only [get_technical_coefficients]
  split
  · exact h
  · rw [gio_hit h]; exact h

theorem gtc_fd_pres {s : MatrixService} {io0 : Df} (h : s.io_matrix_cache = some io0) :
    (get_technical_coefficients s).1.fd_df = s.fd_df := by
  simp only [get_technical_coefficients]
  split
  · rfl
  · rw [gio_hit h]

theorem gli_fd_pres {s : MatrixService} {io0 : Df} (h : s.io_matrix_cache = some io0) :
    (get_leontief_inverse s).1.fd_df = s.fd_df := by
  simp only [get_leontief_inverse]
  split
  · rfl
  · split <;> exact gtc_fd_pres h

theorem gli_ic (s : MatrixService) : (get_leontief_inverse s).1.ic_df = s.ic_df := by
  simp only [get_leontief_inverse]
  split
  · rfl
  · split <;> exact gtc_ic s

theorem gli_inv_calls_le (s : MatrixService) :
    (get_leontief_inverse s).1.inv_calls ≤ s.inv_calls + 1 := by
  simp only [get_leontief_inverse]
  split
  · exact Nat.le_succ _
  · split <;> simp [gtc_inv_calls]

/-! ### getD bridges -/

theorem getD_map_of_lt {α β : Type} (f : α → β) (l : List α) (i : Nat) (d : β) (d2 : α)
    (h : i < l.length) : (l.map f).getD i d = f (l.getD i d2) := by
  rw [List.getD_eq_getElem _ _ (by simpa using h), List.getElem_map,
    List.getD_eq_getElem _ _ h]

theorem getD_zipWith_of_lt {α β γ : Type} (f : α → β → γ) (a : List α) (b : List β)
    (i : Nat) (d : γ) (da : α) (db : β) (ha : i < a.length) (hb : i < b.length) :
    (List.zipWith f a b).getD i d = f (a.getD i da) (b.getD i db) := by
  rw [List.getD_eq_getElem _ _ (by simp [List.length_zipWith]; omega), List.getElem_zipWith,
    List.getD_eq_getElem _ _ ha, List.getD_eq_getElem _ _ hb]

theorem getD_append_left {α : Type} (a b : List α) (j : Nat) (d : α) (h : j < a.length) :
    ((a ++ b).getD j d) = a.getD j d := by
  rw [List.getD_eq_getElem _ _ (by simp; omega), List.getD_eq_getElem _ _ h,
    List.getElem_append_left]

/-! ### Validator lemmas -/

theorem validateLoop_len :
    ∀ (cs : List ChangeConf) (seen : List (String × String)) (sc tfu sc2 tfu2 : List ChangeConf),
    validateLoop cs seen sc tfu = .ok (sc2, tfu2) →
    sc2.length + tfu2.length = sc.length + tfu.length + cs.length := by
  intro cs
  induction cs with
  | nil =>
    intro seen sc tfu sc2 tfu2 h
    simp only [validateLoop, Except.ok.injEq, Prod.mk.injEq] at h
    obtain ⟨h1, h2⟩ := h
    subst h1; subst h2
    simp
  | cons c rest ih =>
    intro seen sc tfu sc2 tfu2 h
    simp only [validateLoop] at h
    split_ifs at h with h1 h2 h3
    all_goals first
      | exact absurd h (by simp)
      | (have hlen := ih _ _ _ _ _ h
         simp only [List.length_append, List.length_cons, List.length_nil] at hlen ⊢
         omega)

theorem validateLoop_err :
    ∀ (cs : List ChangeConf) (seen : List (String × String)) (sc tfu : List ChangeConf) (e : VErr),
    validateLoop cs seen sc tfu = .error e →
    e = .negativeValue ∨ e = .duplicateCombination := by
  intro cs
  induction cs with
  | nil =>
    intro seen sc tfu e h
    simp [validateLoop] at h
  | cons c rest ih =>
    intro seen sc tfu e h
    simp only [validateLoop] at h
    split_ifs at h with h1 h2 h3
    · simp only [Except.error.injEq] at h; exact Or.inl h.symm
    · simp only [Except.error.injEq] at h; exact Or.inr h.symm
    · exact ih _ _ _ _ h
    · exact ih _ _ _ _ h

theorem validate_no_mixed_error (cs : List ChangeConf) :
    validate_sector_changes cs ≠ .error .mixedTypes := by
  rw [validate_sector_changes]
  split
  · simp
  case isFalse hne =>
    rcases hv : validateLoop cs [] [] [] with e | ⟨sc, tfu⟩
    · rcases validateLoop_err cs [] [] [] e hv with rfl | rfl <;> simp
    · have hlen := validateLoop_len cs [] [] [] sc tfu hv
      simp only [List.length_nil] at hlen
      have hcs : cs.length ≠ 0 := fun h0 => hne (List.length_eq_zero.mp h0)
      have : ¬ (sc = [] ∧ tfu = []) := by
        rintro ⟨rfl, rfl⟩
        simp at hlen
        omega
      simp only [if_neg this]
      simp

/-! ### Change-application lemmas -/

theorem setCell_absent {m : Df} {sector demand : Label} {v : ℚ}
    (h : sector ∉ m.rowLabels ∨ demand ∉ m.colLabels) :
    setCell m sector demand v = m := by
  rw [setCell]
  rcases h with h | h
  · rw [List.findIdx?_eq_none_iff.mpr]
    · intro x hx
      simp only [decide_eq_false_iff_not]
      intro hxe
      exact h (hxe ▸ hx)
  · rcases hf : m.rowLabels.findIdx? (· = sector) with _ | i
    · rfl
    · rw [List.findIdx?_eq_none_iff.mpr]
      intro x hx
      simp only [decide_eq_false_iff_not]
      intro hxe
      exact h (hxe ▸ hx)

theorem applyChanges_absent {m : Df} {cs : List ChangeConf}
    (h : ∀ c ∈ cs, Label.str c.sector ∉ m.rowLabels ∨ Label.str c.demand ∉ m.colLabels) :
    applyChanges m cs = m := by
  induction cs with
  | nil => rfl
  | cons c rest ih =>
    rw [applyChanges, List.foldl_cons, setCell_absent (h c (by simp))]
    exact ih (fun c2 hc2 => h c2 (by simp [hc2]))

/-! ### Construction and the technical-coefficients formula -/

theorem make_ok {ic fd : Df} {s : MatrixService} (h : MatrixService.make ic fd = .ok s) :
    s.ic_df = ic ∧ s.fd_df = fd ∧ s.io_matrix_cache = none ∧
    s.technical_coefficients_cache = none ∧ s.leontief_inverse_cache = none ∧
    s.economic_multipliers_cache = none ∧ s.inv_calls = 0 ∧
    ic.data.length = fd.data.length := by
  rw [MatrixService.make] at h
  split_ifs at h with hlen
  · simp only [Except.ok.injEq] at h
    subst h
    exact ⟨rfl, rfl, rfl, rfl, rfl, rfl, rfl, hlen⟩

/-- The cell formula actually computed by `get_technical_coefficients`:
cell `(i,j)` is `IC(i,j)` divided by the row-`i` total output of the
combined matrix (or by `1` when that total is zero). -/
theorem techCoeff_cell (s : MatrixService)
    (hc : s.technical_coefficients_cache = none)
    (hio : s.io_matrix_cache = none)
    (hrect : ∀ r ∈ s.ic_df.data, r.length = s.ic_df.colLabels.length)
    (i j : Nat) (hi : i < ((get_io_matrix s).2).data.length)
    (hj : j < s.ic_df.colLabels.length) :
    ((get_technical_coefficients s).2).cell i j =
      (s.ic_df.cell i j).map (fun v =>
        v / (if pdSum (((get_io_matrix s).2).data.getD i []) = 0 then 1
             else pdSum (((get_io_matrix s).2).data.getD i []))) := by
  set n := s.ic_df.colLabels.length with hn
  set io := (get_io_matrix s).2 with hiodef
  have hiodata : io.data = List.zipWith (· ++ ·) s.ic_df.data
      (if s.ic_df.rowLabels = s.fd_df.rowLabels then s.fd_df
       else reindexDf s.fd_df s.ic_df.rowLabels).data := by
    rw [hiodef]
    simp only [get_io_matrix, hio]
    split <;> rfl
  have hlm : io.data.length ≤ s.ic_df.data.length := by
    rw [hiodata, List.length_zipWith]
    omega
  have hic : i < s.ic_df.data.length := lt_of_lt_of_le hi hlm
  have hrowi : s.ic_df.data.getD i [] ∈ s.ic_df.data := by
    rw [List.getD_eq_getElem _ _ hic]
    exact List.getElem_mem hic
  have hici : (s.ic_df.data.getD i []).length = n := hrect _ hrowi
  have hrow_split : io.data.getD i [] =
      s.ic_df.data.getD i [] ++
        ((if s.ic_df.rowLabels = s.fd_df.rowLabels then s.fd_df
          else reindexDf s.fd_df s.ic_df.rowLabels).data.getD i []) := by
    rw [hiodata]
    exact getD_zipWith_of_lt _ _ _ i [] [] [] (by omega)
      (by rw [hiodata, List.length_zipWith] at hi; omega)
  have htake : (io.data.getD i []).take n = s.ic_df.data.getD i [] := by
    rw [hrow_split]
    exact List.take_left' hici
  have hA : (get_technical_coefficients s).2 =
      { rowLabels := io.rowLabels, colLabels := io.colLabels.take n,
        data := List.zipWith (fun r t => r.map (Option.map (· / t)))
          (io.data.map (fun r => r.take n))
          ((io.data.map pdSum).map (fun x => if x = 0 then 1 else x)) } := by
    simp only [get_technical_coefficients, hc]
    rw [gio_ic]
  rw [hA]
  show (List.zipWith _ _ _ |>.getD i []).getD j none = _
  rw [getD_zipWith_of_lt _ _ _ i [] [] 0 (by simpa using hi)
    (by simpa using hi)]
  rw [getD_map_of_lt _ _ i [] [] hi, getD_map_of_lt _ _ i 0 0 (by simpa using hi),
    getD_map_of_lt _ _ i 0 [] hi]
  rw [htake]
  rw [getD_map_of_lt _ _ j none none (by omega)]
  rfl

theorem gtc_data_len (s : MatrixService) (hc : s.technical_coefficients_cache = none) :
    ((get_technical_coefficients s).2).data.length = ((get_io_matrix s).2).data.length := by
  simp only [get_technical_coefficients, hc]
  rw [gio_ic]
  simp [List.length_zipWith]

theorem gio_data_len (s : MatrixService) (hio : s.io_matrix_cache = none)
    (hal : s.ic_df.rowLabels = s.fd_df.rowLabels) :
    ((get_io_matrix s).2).data.length = min s.ic_df.data.length s.fd_df.data.length := by
  simp only [get_io_matrix, hio, if_pos hal, hconcat]
  simp [List.length_zipWith]

theorem gio_row_aligned (s : MatrixService) (hio : s.io_matrix_cache = none)
    (hal : s.ic_df.rowLabels = s.fd_df.rowLabels) (i : Nat)
    (hic : i < s.ic_df.data.length) (hfd : i < s.fd_df.data.length) :
    ((get_io_matrix s).2).data.getD i [] =
      s.ic_df.data.getD i [] ++ s.fd_df.data.getD i [] := by
  simp only [get_io_matrix, hio, if_pos hal, hconcat]
  exact getD_zipWith_of_lt _ _ _ i [] [] [] hic hfd

theorem covnf_vec_ok {s s1 : MatrixService} {y X : List ℚ}
    (h : calculate_output_with_new_fd_vec s y = (s1, .ok X)) :
    ∃ L : DfQ, get_leontief_inverse s = (s1, .ok L) ∧ L.colLabels.length = y.length ∧
      X = listMatVec L.data y := by
  rw [calculate_output_with_new_fd_vec] at h
  rcases hg : get_leontief_inverse s with ⟨s2, r⟩
  rw [hg] at h
  cases r with
  | error e => simp at h
  | ok L =>
    simp only at h
    split_ifs at h with hlen
    · simp only [Prod.mk.injEq, Except.ok.injEq] at h
      obtain ⟨h1, h2⟩ := h
      subst h1
      exact ⟨L, rfl, hlen, h2.symm⟩
    · simp at h

theorem covnf_vec_of {s s1 : MatrixService} {L : DfQ} {y : List ℚ}
    (hg : get_leontief_inverse s = (s1, .ok L)) (hlen : L.colLabels.length = y.length) :
    calculate_output_with_new_fd_vec s y = (s1, .ok (listMatVec L.data y)) := by
  rw [calculate_output_with_new_fd_vec, hg]
  simp only [if_pos hlen]

theorem gli_ok_np {s s1 : MatrixService} {L : DfQ}
    (hc : s.leontief_inverse_cache = none)
    (h : get_leontief_inverse s = (s1, .ok L)) :
    npInvRows (idMinusRows ((get_technical_coefficients s).2).data) = some L.data ∧
    L.colLabels = ((get_technical_coefficients s).2).colLabels := by
  simp only [get_leontief_inverse, hc] at h
  rcases hnp : npInvRows (idMinusRows ((get_technical_coefficients s).2).data) with _ | rows
  · rw [hnp] at h
    simp at h
  · rw [hnp] at h
    simp only [Prod.mk.injEq, Except.ok.injEq] at h
    rw [← h.2]
    exact ⟨rfl, rfl⟩

theorem foldr_max_of_all {l : List Nat} {k : Nat} (h : ∀ x ∈ l, x = k) (hne : l ≠ []) :
    l.foldr max 0 = k := by
  induction l with
  | nil => exact absurd rfl hne
  | cons a t ih =>
    rw [List.foldr_cons]
    cases t with
    | nil => simp [h a (by simp)]
    | cons b t2 =>
      rw [ih (fun x hx => h x (by simp [hx])) (by simp)]
      simp [h a (by simp)]

theorem dfOfLists_rect {ll : List (List ℚ)} {k : Nat}
    (h : ∀ r ∈ ll, r.length = k) (hk : ll = [] → k = 0) :
    (dfOfLists ll).data = ll.map (fun r => r.map some) ∧
    (dfOfLists ll).colLabels.length = k := by
  have hn : (ll.map List.length).foldr max 0 = k := by
    cases hll : ll with
    | nil => simp [hk hll]
    | cons a t =>
      refine foldr_max_of_all ?_ (by simp)
      intro x hx
      simp only [List.mem_map] at hx
      obtain ⟨r, hr, rfl⟩ := hx
      exact h r (hll ▸ hr)
  constructor
  · simp only [dfOfLists]
    rw [hn]
    refine List.map_congr_left ?_
    intro r hr
    rw [h r hr]
    simp
  · simp [dfOfLists, hn]

/-! ### The round trip under equal total outputs -/

theorem roundtrip_equal_totals
    (ic fd : List (List ℚ)) (s s1 : MatrixService) (n : Nat) (c : ℚ) (X : List ℚ)
    (hmk : MatrixService.from_lists ic fd = .ok s)
    (hiclen : ic.length = n)
    (hicrect : ∀ r ∈ ic, r.length = n)
    (htot : ((get_io_matrix s).2).data.map pdSum = List.replicate n c)
    (hc0 : c ≠ 0)
    (hrun : calculate_output_with_new_fd_vec s (s.fd_df.data.map pdSum) = (s1, .ok X)) :
    X = List.replicate n c := by
  rw [MatrixService.from_lists] at hmk
  obtain ⟨hic_eq, hfd_eq, hio, hcT, hcL, _, _, hlen_eq⟩ := make_ok hmk
  have hkz : ic = [] → n = 0 := by intro h0; rw [← hiclen, h0]; rfl
  obtain ⟨hicd0, hiccols0⟩ := dfOfLists_rect hicrect hkz
  have hicd : s.ic_df.data = ic.map (fun r => r.map some) := by rw [hic_eq, hicd0]
  have hiccols : s.ic_df.colLabels.length = n := by rw [hic_eq, hiccols0]
  have hicdlen : s.ic_df.data.length = n := by rw [hicd, List.length_map, hiclen]
  have hfdlen : fd.length = n := by
    have h1 : (dfOfLists ic).data.length = ic.length := by simp [dfOfLists]
    have h2 : (dfOfLists fd).data.length = fd.length := by simp [dfOfLists]
    omega
  have hfddlen : s.fd_df.data.length = n := by
    rw [hfd_eq]
    simp [dfOfLists, hfdlen]
  have haligned : s.ic_df.rowLabels = s.fd_df.rowLabels := by
    rw [hic_eq, hfd_eq]
    show (List.range ic.length).map Label.num = (List.range fd.length).map Label.num
    rw [hiclen, hfdlen]
  have hioLen : ((get_io_matrix s).2).data.length = n := by
    rw [gio_data_len s hio haligned, hicdlen, hfddlen]
    omega
  have htotI : ∀ i : Nat, i < n → pdSum (((get_io_matrix s).2).data.getD i []) = c := by
    intro i hi
    have h1 : ((((get_io_matrix s).2).data.map pdSum).getD i 0)
        = pdSum (((get_io_matrix s).2).data.getD i []) :=
      getD_map_of_lt pdSum _ i 0 [] (by omega)
    rw [← h1, htot, List.getD_eq_getElem _ _ (by simpa using hi), List.getElem_replicate]
  have hicq : ∀ i j : Nat, i < n → j < n →
      s.ic_df.cell i j = some ((ic.getD i []).getD j 0) := by
    intro i j hi hj
    have hrl : (ic.getD i []).length = n := by
      refine hicrect _ ?_
      rw [List.getD_eq_getElem _ _ (by omega)]
      exact List.getElem_mem (by omega)
    show (s.ic_df.data.getD i []).getD j none = _
    rw [hicd, getD_map_of_lt _ _ i [] [] (by rw [hiclen]; omega)]
    rw [getD_map_of_lt _ _ j none 0 (by rw [hrl]; omega)]
  have hAcell : ∀ i j : Nat, i < n → j < n →
      ((get_technical_coefficients s).2).cell i j = some (((ic.getD i []).getD j 0) / c) := by
    intro i j hi hj
    have hrect2 : ∀ r ∈ s.ic_df.data, r.length = s.ic_df.colLabels.length := by
      intro r hr
      rw [hicd] at hr
      simp only [List.mem_map] at hr
      obtain ⟨r0, hr0, rfl⟩ := hr
      rw [List.length_map, hicrect r0 hr0, hiccols]
    rw [techCoeff_cell s hcT hio hrect2 i j (by omega) (by omega)]
    rw [htotI i hi, if_neg hc0, hicq i j hi hj]
    rfl
  have hAlen : ((get_technical_coefficients s).2).data.length = n := by
    rw [gtc_data_len s hcT, hioLen]
  have hlmcell : ∀ i j : Nat, i < n → j < n →
      ((idMinusRows ((get_technical_coefficients s).2).data).getD i []).getD j none =
        some ((if i = j then (1:ℚ) else 0) - ((ic.getD i []).getD j 0) / c) := by
    intro i j hi hj
    rw [idMinusRows]
    rw [hAlen]
    rw [getD_range_map _ n i [] hi, getD_range_map _ n j none hj]
    show (((get_technical_coefficients s).2).cell i j).map _ = _
    rw [hAcell i j hi hj]
    rfl
  have hlmlen : (idMinusRows ((get_technical_coefficients s).2).data).length = n := by
    rw [idMinusRows, hAlen]
    simp
  obtain ⟨L, hgli, hlenL, hXdef⟩ := covnf_vec_ok hrun
  obtain ⟨hnp, hcolL⟩ := gli_ok_np hcL hgli
  obtain ⟨Mrows, hsq, hLlen, hLrows, hMN, hNM⟩ := npInvRows_spec hnp
  obtain ⟨hlm_eq, hMlen0, hMrowlen⟩ := allSomeSquare?_eq_some hsq
  have hm : Mrows.length = n := by rw [hMlen0, hlmlen]
  subst hm
  set m := Mrows.length with hmdef
  have hylen : (s.fd_df.data.map pdSum).length = m := by
    rw [List.length_map, hfddlen]
  have hMentry : ∀ i j : Fin m, matOfRows m Mrows i j =
      (if (i : Nat) = (j : Nat) then (1:ℚ) else 0) - ((ic.getD i []).getD j 0) / c := by
    intro i j
    have hrl : (Mrows.getD i []).length = m := by
      refine (hMrowlen _ ?_).trans hlmlen
      rw [List.getD_eq_getElem _ _ i.isLt]
      exact List.getElem_mem i.isLt
    have h1 : ((idMinusRows ((get_technical_coefficients s).2).data).getD i []).getD j none
        = some ((Mrows.getD i []).getD j 0) := by
      rw [hlm_eq, getD_map_of_lt _ _ (i : Nat) [] [] (by simpa using i.isLt)]
      rw [getD_map_of_lt _ _ (j : Nat) none 0 (by rw [hrl]; exact j.isLt)]
    rw [hlmcell i j i.isLt j.isLt] at h1
    have h2 := Option.some.inj h1
    show (Mrows.getD i []).getD j 0 = _
    rw [← h2]
  have hicsum : ∀ i : Fin m, (ic.getD i []).sum = ∑ j : Fin m, (ic.getD i []).getD j 0 := by
    intro i
    refine listSum_eq_finSum _ m ?_
    refine hicrect _ ?_
    rw [List.getD_eq_getElem _ _ (by omega)]
    exact List.getElem_mem (by omega)
  have hyentry : ∀ i : Fin m, (s.fd_df.data.map pdSum).getD i 0
      = c - ∑ j : Fin m, (ic.getD i []).getD j 0 := by
    intro i
    have hfdrow : (s.fd_df.data.map pdSum).getD i 0 = pdSum (s.fd_df.data.getD i []) :=
      getD_map_of_lt pdSum _ i 0 [] (by rw [hfddlen]; exact i.isLt)
    have hsplit := gio_row_aligned s hio haligned i (by rw [hicdlen]; exact i.isLt)
      (by rw [hfddlen]; exact i.isLt)
    have htoti := htotI i i.isLt
    rw [hsplit, pdSum_append] at htoti
    have hicrow : pdSum (s.ic_df.data.getD i []) = (ic.getD i []).sum := by
      rw [hicd, getD_map_of_lt _ _ (i : Nat) [] [] (by rw [hiclen]; exact i.isLt)]
      exact pdSum_map_some _
    rw [hfdrow]
    rw [hicrow] at htoti
    rw [hicsum i] at htoti
    linarith
  have hMx : (matOfRows m Mrows).mulVec (fun _ => c)
      = (fun i : Fin m => (s.fd_df.data.map pdSum).getD i 0) := by
    funext i
    simp only [Matrix.mulVec, Matrix.dotProduct]
    rw [hyentry i]
    have : ∀ j : Fin m, matOfRows m Mrows i j * c
        = (if i = j then c else 0) - ((ic.getD i []).getD j 0) / c * c := by
      intro j
      rw [hMentry i j, sub_mul]
      congr 1
      by_cases hij : i = j
      · rw [if_pos hij, if_pos (by rw [hij]), one_mul]
      · rw [if_neg hij, if_neg (by intro hv; exact hij (Fin.val_injective hv)), zero_mul]
    rw [Finset.sum_congr rfl (fun j _ => this j)]
    rw [Finset.sum_sub_distrib, Finset.sum_ite_eq Finset.univ i (fun _ => c)]
    rw [if_pos (Finset.mem_univ i)]
    congr 1
    refine Finset.sum_congr rfl (fun j _ => ?_)
    exact div_mul_cancel₀ _ hc0
  have hNy : (matOfRows m L.data).mulVec (fun i : Fin m => (s.fd_df.data.map pdSum).getD i 0)
      = fun _ => c := by
    rw [← hMx, Matrix.mulVec_mulVec, hNM, Matrix.one_mulVec]
  have hXlen : X.length = m := by
    rw [hXdef, listMatVec, List.length_map, hLlen]
  have hXi : ∀ i : Fin m, X.getD i 0 = c := by
    intro i
    have h1 : X.getD i 0 = dotL (L.data.getD i []) (s.fd_df.data.map pdSum) := by
      rw [hXdef, listMatVec]
      exact getD_map_of_lt _ _ (i : Nat) 0 [] (by rw [hLlen]; exact i.isLt)
    rw [h1, dotL_eq _ _ m hylen]
    have h2 : ∀ j : Fin m, (L.data.getD i []).getD j 0 = matOfRows m L.data i j := by
      intro j
      rfl
    rw [Finset.sum_congr rfl (fun j _ => by rw [h2 j])]
    have h3 : (∑ j : Fin m, matOfRows m L.data i j * (s.fd_df.data.map pdSum).getD j 0)
        = ((matOfRows m L.data).mulVec (fun k => (s.fd_df.data.map pdSum).getD k 0)) i := by
      simp [Matrix.mulVec, Matrix.dotProduct]
    rw [h3, hNy]
  apply List.ext_getElem
  · rw [hXlen]; simp
  · intro i hi hi2
    have h1 : X[i] = X.getD i 0 := by rw [List.getD_eq_getElem _ _ hi]
    rw [h1, hXi ⟨i, by rw [← hXlen]; exact hi⟩]
    rw [List.getElem_replicate]

/-! ### Frame lemmas for the final-demand frame and the multipliers -/

theorem gtc_fd_aligned {s : MatrixService} (hal : s.ic_df.rowLabels = s.fd_df.rowLabels) :
    (get_technical_coefficients s).1.fd_df = s.fd_df := by
  simp only [get_technical_coefficients]
  split
  · rfl
  · exact gio_fd_aligned hal

theorem gli_fd_aligned {s : MatrixService} (hal : s.ic_df.rowLabels = s.fd_df.rowLabels) :
    (get_leontief_inverse s).1.fd_df = s.fd_df := by
  simp only [get_leontief_inverse]
  split
  · rfl
  · split <;> exact gtc_fd_aligned hal

theorem gem_fd_aligned {s : MatrixService} (hal : s.ic_df.rowLabels = s.fd_df.rowLabels) :
    (get_economic_multipliers s).1.fd_df = s.fd_df := by
  simp only [get_economic_multipliers]
  split
  · rfl
  · rcases hg : get_leontief_inverse s with ⟨s2, r⟩
    have hfd : s2.fd_df = s.fd_df := by rw [← gli_fd_aligned hal, hg]
    cases r <;> simp only [hfd] <;> rfl

theorem check_component {cs : List ChangeConf}
    (h : check_change_fd_type cs = .ok .component_change) :
    cs ≠ [] ∧ isTfuChange cs = false := by
  cases cs with
  | nil => simp [check_change_fd_type] at h
  | cons c rest =>
    rw [check_change_fd_type] at h
    split_ifs at h with hd
    · simp at h
    · refine ⟨by simp, ?_⟩
      simp [isTfuChange, hd]

theorem get_fd_table_nontfu {s : MatrixService} {cs : List ChangeConf}
    (hne : cs ≠ []) (htfu : isTfuChange cs = false) :
    get_fd_table s cs false false = (s, applyChanges s.fd_df cs) := by
  rw [get_fd_table]
  simp only [htfu, Bool.false_eq_true, not_false_iff, and_true, Bool.false_eq_true,
    if_false]
  rw [if_pos hne]

/-! ### `dfDot` and the row-sum commutation -/

theorem covnf_df_ok {s s1 : MatrixService} {F O : Df}
    (h : calculate_output_with_new_fd_df s F = (s1, .ok O)) :
    ∃ L : DfQ, get_leontief_inverse s = (s1, .ok L) ∧ dfDot L F = some O := by
  rw [calculate_output_with_new_fd_df] at h
  rcases hg : get_leontief_inverse s with ⟨s2, r⟩
  rw [hg] at h
  cases r with
  | error e => simp at h
  | ok L =>
    simp only at h
    rcases hd : dfDot L F with _ | O2
    · rw [hd] at h; simp at h
    · rw [hd] at h
      simp only [Prod.mk.injEq, Except.ok.injEq] at h
      obtain ⟨h1, h2⟩ := h
      subst h1
      exact ⟨L, rfl, by rw [hd, h2]⟩

theorem covnf_df_of {s s1 : MatrixService} {L : DfQ} {F O : Df}
    (hg : get_leontief_inverse s = (s1, .ok L)) (hd : dfDot L F = some O) :
    calculate_output_with_new_fd_df s F = (s1, .ok O) := by
  rw [calculate_output_with_new_fd_df, hg]
  show (match dfDot L F with
        | some O2 => (s1, Except.ok O2)
        | none => (s1, Except.error ())) = (s1, Except.ok O)
  rw [hd]

theorem sum_range_map (g : Nat → ℚ) (k : Nat) :
    ((List.range k).map g).sum = ∑ j : Fin k, g j := by
  rw [listSum_eq_finSum _ k (by simp)]
  refine Finset.sum_congr rfl (fun j _ => ?_)
  exact getD_range_map g k j 0 j.isLt

theorem dfDot_rowsum (L : DfQ) (F : Df) (Fq : List (List ℚ)) (O : Df)
    (hF : F.data = Fq.map (fun r => r.map some))
    (hFrect : ∀ r ∈ Fq, r.length = F.colLabels.length)
    (hO : dfDot L F = some O) :
    O.data.map pdSum = listMatVec L.data (F.data.map pdSum) := by
  have hcol : ∀ j : Nat, j < F.colLabels.length →
      ((F.data.map (fun br : List (Option ℚ) => br.getD j none)).mapM (fun c => c))
        = some (Fq.map (fun r => r.getD j 0)) := by
    intro j hj
    refine mapM_id_eq_some.mpr ?_
    rw [hF, List.map_map, List.map_map]
    refine List.map_congr_left ?_
    intro r hr
    show (r.map some).getD j none = some (r.getD j 0)
    exact getD_map_of_lt some r j none 0 (by rw [hFrect r hr]; omega)
  rw [dfDot] at hO
  split_ifs at hO with hal
  · simp only [Option.some_inj] at hO
    have hOdata : O.data = L.data.map (fun r =>
        (List.range F.colLabels.length).map (fun j =>
          ((F.data.map (fun br : List (Option ℚ) => br.getD j none)).mapM (fun c => c)).map
            (fun cq => dotL r cq))) := by
      rw [← hO]
    rw [hOdata, List.map_map, listMatVec]
    refine List.map_congr_left ?_
    intro r _
    show pdSum ((List.range F.colLabels.length).map _) = dotL r (F.data.map pdSum)
    have h1 : ((List.range F.colLabels.length).map (fun j =>
        ((F.data.map (fun br : List (Option ℚ) => br.getD j none)).mapM (fun c => c)).map
          (fun cq => dotL r cq)))
        = (List.range F.colLabels.length).map
            (fun j => some (dotL r (Fq.map (fun row => row.getD j 0)))) := by
      refine List.map_congr_left ?_
      intro j hj
      rw [hcol j (by simpa using hj)]
      rfl
    refine (congrArg pdSum h1).trans ?_
    have h2 : pdSum ((List.range F.colLabels.length).map
          (fun j => some (dotL r (Fq.map (fun row => row.getD j 0)))))
        = ((List.range F.colLabels.length).map
            (fun j => dotL r (Fq.map (fun row => row.getD j 0)))).sum := by
      rw [pdSum, List.map_map]
      rfl
    refine h2.trans ?_
    rw [sum_range_map]
    have hylen : (F.data.map pdSum).length = Fq.length := by
      rw [hF]
      simp
    rw [dotL_eq r _ Fq.length hylen]
    have hy : ∀ t : Fin Fq.length, (F.data.map pdSum).getD t 0 = (Fq.getD t []).sum := by
      intro t
      rw [hF, List.map_map]
      rw [getD_map_of_lt _ _ (t : Nat) 0 [] (by simpa using t.isLt)]
      exact pdSum_map_some _
    have hrowlen : ∀ t : Fin Fq.length, ((Fq.getD t []).length) = F.colLabels.length := by
      intro t
      refine hFrect _ ?_
      rw [List.getD_eq_getElem _ _ (by simpa using t.isLt)]
      exact List.getElem_mem _
    have hcd : ∀ j : Fin F.colLabels.length, dotL r (Fq.map (fun row => row.getD j 0))
        = ∑ t : Fin Fq.length, r.getD t 0 * (Fq.getD t []).getD j 0 := by
      intro j
      rw [dotL_eq r _ Fq.length (by simp)]
      refine Finset.sum_congr rfl (fun t _ => ?_)
      rw [getD_map_of_lt _ _ (t : Nat) 0 [] (by simpa using t.isLt)]
    rw [Finset.sum_congr rfl (fun j _ => hcd j)]
    rw [Finset.sum_comm]
    refine Finset.sum_congr rfl (fun t _ => ?_)
    rw [hy t, ← Finset.mul_sum]
    congr 1
    rw [listSum_eq_finSum _ F.colLabels.length (hrowlen t)]

theorem scen_of {s s1 : MatrixService} {L : DfQ} (fds : List Df)
    (hg : get_leontief_inverse s = (s1, .ok L)) :
    calculate_output_scenarios s fds = (s1, .ok ((List.range fds.length).map fun k =>
      { scen := k + 1
        final_demand := (fds.getD k ⟨[], [], []⟩).data
        total_output := listMatVec L.data ((fds.getD k ⟨[], [], []⟩).data.map pdSum)
        output_diff := List.zipWith (· - ·)
          (listMatVec L.data ((fds.getD k ⟨[], [], []⟩).data.map pdSum))
          (s1.fd_df.data.map pdSum) })) := by
  rw [calculate_output_scenarios, hg]

/-! ## Claims -/

/-- C3 (counterexample): for the specification's concrete 3-sector
instance, the engine's total output vector (row sums of the combined IO
matrix) is not `[750, 1050, 725]` — the third row of the combined matrix
sums to `25 + 150 + 200 + 300 = 675`, not `725`. -/
theorem claim3_counterexample :
    ((get_io_matrix sampleS).2).data.map pdSum ≠ [750, 1050, 725] := by
  norm_num [get_io_matrix, hconcat, pdSum, sampleS, rangeLabels3]

/-- C3 (amended): for the concrete 3-sector instance with the sample
intermediate consumption and final demand, the total output vector is
`[750, 1050, 675]`, and row 0 of the technical-coefficients matrix is
`[50/750, 200/750, 100/750]`. -/
theorem claim3_sample_values :
    ((get_io_matrix sampleS).2).data.map pdSum = [750, 1050, 675] ∧
    ((get_technical_coefficients sampleS).2).data.getD 0 [] =
      [some (50/750), some (200/750), some (100/750)] := by
  constructor
  · norm_num [get_io_matrix, hconcat, pdSum, sampleS, rangeLabels3]
  · rw [htech_sample]
    norm_num [sampleA]

/-- C5 (code evaluated at the failing input): the specification's mixed
change batch — one change targeting the reserved total-final-use sentinel
and one targeting a named demand category — passes
`validate_sector_changes` (returns `True`) instead of failing with
`MixedChangeTypes`; `check_change_fd_type` classifies the whole batch by
its first entry alone; and no batch whatsoever can produce the
`MixedChangeTypes` error, because the guard
`if not sector_changes and not total_final_use_changes` is unsatisfiable
for a non-empty batch. -/
theorem claim5_mixed_batch_not_rejected :
    validate_sector_changes mixedBatch = .ok true ∧
    check_change_fd_type mixedBatch = .ok .total_final_use_change ∧
    ∀ cs : List ChangeConf, validate_sector_changes cs ≠ .error .mixedTypes := by
  refine ⟨?_, ?_, validate_no_mixed_error⟩
  · norm_num +decide [validate_sector_changes, validateLoop, mixedBatch, TOTAL_FINAL_USE_COLUMN]
  · norm_num +decide [check_change_fd_type, mixedBatch, TOTAL_FINAL_USE_COLUMN]

/-- C6 (counterexample): a change whose sector label is absent from the
final-demand frame is silently skipped — `get_fd_table` returns normally
with the frame unchanged, raising no `UnknownSector` error. -/
theorem claim6_counterexample :
    Label.str chgUnknown.sector ∉ sectorS.fd_df.rowLabels ∧
    get_fd_table sectorS [chgUnknown] false false = (sectorS, sectorS.fd_df) := by
  constructor
  · norm_num +decide [chgUnknown, sectorS, secLabels]
  · norm_num +decide [get_fd_table, isTfuChange, applyChanges, setCell, chgUnknown,
      TOTAL_FINAL_USE_COLUMN, sectorS, secLabels, List.findIdx?]

/-- C6 (amended): on the primary path, a scenario change whose sector or
demand-category label is absent from the working final-demand frame is
silently skipped — applying a batch of such changes returns the engine
state and frame entirely unchanged, with no error. -/
theorem claim6_unknown_labels_skipped (s : MatrixService) (cs : List ChangeConf)
    (h : ∀ c ∈ cs, Label.str c.sector ∉ s.fd_df.rowLabels ∨
      Label.str c.demand ∉ s.fd_df.colLabels) :
    get_fd_table s cs false false = (s, s.fd_df) := by
  rw [get_fd_table]
  show (s, if cs ≠ [] ∧ ¬ (isTfuChange cs = true) then applyChanges s.fd_df cs else s.fd_df)
    = (s, s.fd_df)
  split_ifs with h1
  · rw [applyChanges_absent h]
  · rfl

/-- C6 (witness): the amended theorem at the labelled engine and the
unknown-sector change. -/
theorem claim6_witness :
    get_fd_table sectorS [chgUnknown] false false = (sectorS, sectorS.fd_df) := by
  refine claim6_unknown_labels_skipped sectorS [chgUnknown] ?_
  intro c hc
  rw [List.mem_singleton] at hc
  subst hc
  left
  norm_num +decide [chgUnknown, sectorS, secLabels]

/-- C8 (counterexample): for the sample engine, the derived
"total final use" series is `[750, 1050, 675]` — the row sums of the full
combined IO matrix — while the final-demand row sums are
`[400, 500, 300]`; the two differ. -/
theorem claim8_counterexample :
    (get_total_final_use sampleS []).2.vals = [750, 1050, 675] ∧
    sampleS.fd_df.data.map pdSum = [400, 500, 300] ∧
    (get_total_final_use sampleS []).2.vals ≠ sampleS.fd_df.data.map pdSum := by
  refine ⟨?_, ?_, ?_⟩
  · norm_num [get_total_final_use, get_io_matrix, hconcat, applyChanges, pdSum,
      sampleS, rangeLabels3]
  · norm_num [pdSum, sampleS]
  · norm_num [get_total_final_use, get_io_matrix, hconcat, applyChanges, pdSum,
      sampleS, rangeLabels3]

/-- C8 (amended): `get_total_final_use` returns, per sector, the row sum
of the full combined IO matrix — intermediate consumption plus final
demand, i.e. the sector's total output — not the final-demand row sum
alone. -/
theorem claim8_total_final_use_is_total_output (s : MatrixService)
    (hio : s.io_matrix_cache = none)
    (hal : s.ic_df.rowLabels = s.fd_df.rowLabels) :
    (get_total_final_use s []).2.vals =
      List.zipWith (· + ·) (s.ic_df.data.map pdSum) (s.fd_df.data.map pdSum) := by
  rw [get_total_final_use]
  show ((get_io_matrix s).2).data.map pdSum = _
  simp only [get_io_matrix, hio, if_pos hal, hconcat]
  show (List.zipWith (· ++ ·) s.ic_df.data s.fd_df.data).map pdSum = _
  rw [List.map_zipWith]
  rw [List.zipWith_map]
  have hfun : (fun (x y : List (Option ℚ)) => pdSum (x ++ y))
      = (fun x y => pdSum x + pdSum y) := by
    funext a b
    exact pdSum_append a b
  rw [hfun]

/-- C8 (witness): the amended theorem at the sample engine. -/
theorem claim8_witness :
    (get_total_final_use sampleS []).2.vals =
      List.zipWith (· + ·) (sampleS.ic_df.data.map pdSum) (sampleS.fd_df.data.map pdSum) ∧
    List.zipWith (· + ·) (sampleS.ic_df.data.map pdSum) (sampleS.fd_df.data.map pdSum)
      = [750, 1050, 675] := by
  refine ⟨claim8_total_final_use_is_total_output sampleS rfl rfl, ?_⟩
  norm_num [pdSum, sampleS]

/-- C1 (counterexample): the claimed formula divides cell `(i,j)` by the
column sector's total output `TotalOutput(j)`; the code divides by the row
sector's total output.  At the sample engine, cell `(0,1)` is
`200/750 = 4/15`, while the claimed formula gives `200/1050 = 4/21`. -/
theorem claim1_counterexample :
    ((get_technical_coefficients sampleS).2).cell 0 1 = some (4/15) ∧
    specTechCoeffCell sampleS 0 1 = some (4/21) ∧
    ((get_technical_coefficients sampleS).2).cell 0 1 ≠ specTechCoeffCell sampleS 0 1 := by
  have h1 : (get_technical_coefficients sampleS).2 = sampleA := by rw [htech_sample]
  refine ⟨?_, ?_, ?_⟩
  · rw [h1]
    norm_num [Df.cell, sampleA]
  · norm_num [specTechCoeffCell, Df.cell, get_io_matrix, hconcat, pdSum, sampleS, rangeLabels3]
  · rw [h1]
    norm_num [specTechCoeffCell, Df.cell, get_io_matrix, hconcat, pdSum, sampleS, sampleA,
      rangeLabels3]

/-- C1 (amended): for every validly constructed engine, the technical
coefficient at `(i,j)` equals `IC(i,j)` divided by `TotalOutput(i)` — the
row sum of the combined IO matrix for the producing (row) sector `i`, not
the column sector `j` — with a zero total output replaced by `1` so the
coefficients of that sector become `0` rather than undefined. -/
theorem claim1_row_divisor (ic fd : Df) (s : MatrixService) (i j : Nat)
    (hmk : MatrixService.make ic fd = .ok s)
    (hrect : ∀ r ∈ ic.data, r.length = ic.colLabels.length)
    (hi : i < ((get_io_matrix s).2).data.length)
    (hj : j < ic.colLabels.length) :
    ((get_technical_coefficients s).2).cell i j =
      (s.ic_df.cell i j).map (fun v =>
        v / (if pdSum (((get_io_matrix s).2).data.getD i []) = 0 then 1
             else pdSum (((get_io_matrix s).2).data.getD i []))) := by
  obtain ⟨hic, _, hio, hcT, _⟩ := make_ok hmk
  subst hic
  exact techCoeff_cell s hcT hio hrect i j hi hj

/-- C1 (witness): the amended theorem at the sample engine, cell `(0,1)`:
the coefficient is `200 / 750 = 4/15`. -/
theorem claim1_witness :
    ((get_technical_coefficients sampleS).2).cell 0 1 =
      (sampleS.ic_df.cell 0 1).map (fun v =>
        v / (if pdSum (((get_io_matrix sampleS).2).data.getD 0 []) = 0 then 1
             else pdSum (((get_io_matrix sampleS).2).data.getD 0 []))) ∧
    (sampleS.ic_df.cell 0 1).map (fun v =>
        v / (if pdSum (((get_io_matrix sampleS).2).data.getD 0 []) = 0 then 1
             else pdSum (((get_io_matrix sampleS).2).data.getD 0 []))) = some (4/15) := by
  constructor
  · refine claim1_row_divisor sampleS.ic_df sampleS.fd_df sampleS 0 1 rfl ?_ ?_ ?_
    · intro r hr
      fin_cases hr <;> rfl
    · norm_num [get_io_matrix, hconcat, sampleS, rangeLabels3]
    · norm_num [sampleS, rangeLabels3]
  · norm_num [Df.cell, get_io_matrix, hconcat, pdSum, sampleS, rangeLabels3]

/-- C2 (counterexample): for the sample engine, computing output from the
original final demand's row-sum vector `[400, 500, 300]` yields
`[71655/88, 84765/88, 68055/88] ≈ [814.26, 963.24, 773.35]`, which misses
the combined-matrix row sums `[750, 1050, 675]` by far more than the
`1e-9` relative tolerance. -/
theorem claim2_counterexample :
    sampleS.fd_df.data.map pdSum = [400, 500, 300] ∧
    ((get_io_matrix sampleS).2).data.map pdSum = [750, 1050, 675] ∧
    calculate_output_with_new_fd_vec sampleS [400, 500, 300]
      = (sampleWarm, .ok [71655/88, 84765/88, 68055/88]) ∧
    ¬ (|(71655/88 : ℚ) - 750| ≤ |(750 : ℚ)| / 1000000000) := by
  refine ⟨?_, ?_, ?_, by norm_num [abs_le]⟩
  · norm_num [pdSum, sampleS]
  · norm_num [get_io_matrix, hconcat, pdSum, sampleS, rangeLabels3]
  · rw [covnf_vec_of gli_sample (by norm_num [sampleL, rangeLabels3])]
    norm_num [listMatVec, dotL, sampleL, lSample, List.ofFn_succ]

/-- C2 (amended): the round trip holds when all sectors have equal,
nonzero total output: for an engine built by `from_lists` from a square
intermediate-consumption matrix whose combined row sums are all the same
nonzero constant, computing output from the stored final demand's row-sum
vector reproduces the combined-matrix row sums within `1e-9` relative
tolerance (in fact exactly).  In general the round trip fails (see the
counterexample). -/
theorem claim2_roundtrip_equal_totals
    (ic fd : List (List ℚ)) (s s1 : MatrixService) (n : Nat) (c : ℚ) (X : List ℚ)
    (hmk : MatrixService.from_lists ic fd = .ok s)
    (hiclen : ic.length = n)
    (hicrect : ∀ r ∈ ic, r.length = n)
    (htot : ((get_io_matrix s).2).data.map pdSum = List.replicate n c)
    (hc0 : c ≠ 0)
    (hrun : calculate_output_with_new_fd_vec s (s.fd_df.data.map pdSum) = (s1, .ok X)) :
    ∀ i : Nat, |X.getD i 0 - (((get_io_matrix s).2).data.map pdSum).getD i 0|
      ≤ |(((get_io_matrix s).2).data.map pdSum).getD i 0| / 1000000000 := by
  have hX := roundtrip_equal_totals ic fd s s1 n c X hmk hiclen hicrect htot hc0 hrun
  intro i
  rw [htot, hX]
  rw [sub_self, abs_zero]
  positivity

/-- C2 (witness): the amended theorem at the 2-sector engine whose two
sectors both have total output `10`: the computed output is exactly
`[10, 10]`. -/
theorem claim2_witness :
    MatrixService.from_lists [[1, 2], [2, 1]] [[7], [7]] = .ok eqS ∧
    ((get_io_matrix eqS).2).data.map pdSum = List.replicate 2 10 ∧
    calculate_output_with_new_fd_vec eqS (eqS.fd_df.data.map pdSum)
      = (eqWarm, .ok [10, 10]) ∧
    ∀ i : Nat, |([10, 10] : List ℚ).getD i 0 - (((get_io_matrix eqS).2).data.map pdSum).getD i 0|
      ≤ |(((get_io_matrix eqS).2).data.map pdSum).getD i 0| / 1000000000 := by
  have h1 : MatrixService.from_lists [[1, 2], [2, 1]] [[7], [7]] = .ok eqS := by
    norm_num [MatrixService.from_lists, MatrixService.make, dfOfLists, eqS, List.range_succ]
  have h2 : ((get_io_matrix eqS).2).data.map pdSum = List.replicate 2 10 := by
    norm_num [get_io_matrix, hconcat, pdSum, eqS, List.replicate]
  have h3 : calculate_output_with_new_fd_vec eqS (eqS.fd_df.data.map pdSum)
      = (eqWarm, .ok [10, 10]) := by
    have hy : eqS.fd_df.data.map pdSum = [7, 7] := by norm_num [pdSum, eqS]
    rw [hy, covnf_vec_of gli_eqS (by norm_num [eqL])]
    norm_num [listMatVec, dotL, eqL, lEq, List.ofFn_succ]
  refine ⟨h1, h2, h3, ?_⟩
  exact claim2_roundtrip_equal_totals [[1, 2], [2, 1]] [[7], [7]] eqS eqWarm 2 10 [10, 10]
    h1 rfl (by intro r hr; fin_cases hr <;> rfl) h2 (by norm_num) h3

/-- C9: when `get_leontief_inverse` fails, the Leontief-inverse cache slot
stays empty, the technical coefficients computed (or already cached)
before the failure remain cached and unchanged, and an already-cached
combined matrix is untouched. -/
theorem claim9_failed_inversion_preserves_caches (s s1 : MatrixService) (e : Unit)
    (h : get_leontief_inverse s = (s1, .error e)) :
    s1.leontief_inverse_cache = none ∧
    s1.technical_coefficients_cache = some ((get_technical_coefficients s).2) ∧
    (∀ A0, s.technical_coefficients_cache = some A0 →
      s1.technical_coefficients_cache = some A0) ∧
    (∀ io0, s.io_matrix_cache = some io0 → s1.io_matrix_cache = some io0) := by
  rcases hc : s.leontief_inverse_cache with _ | m
  · simp only [get_leontief_inverse, hc] at h
    rcases hnp : npInvRows (idMinusRows ((get_technical_coefficients s).2).data) with _ | rows
    · rw [hnp] at h
      simp only [Prod.mk.injEq] at h
      obtain ⟨h1, _⟩ := h
      subst h1
      refine ⟨?_, ?_, ?_, ?_⟩
      · show (get_technical_coefficients s).1.leontief_inverse_cache = none
        rw [gtc_leontief, hc]
      · show (get_technical_coefficients s).1.technical_coefficients_cache = _
        exact gtc_cache_pop s
      · intro A0 h0
        show (get_technical_coefficients s).1.technical_coefficients_cache = some A0
        rw [gtc_hit h0]
        exact h0
      · intro io0 h0
        show (get_technical_coefficients s).1.io_matrix_cache = some io0
        exact gtc_io_pres h0
    · rw [hnp] at h
      simp at h
  · simp only [get_leontief_inverse, hc] at h
    simp at h

/-- C9 (witness): the singular 1-sector engine: inversion of `I - A = [[0]]`
fails, the Leontief slot stays empty, and the coefficients remain cached. -/
theorem claim9_witness :
    get_leontief_inverse singS = ({ singMid with inv_calls := 1 }, .error ()) ∧
    ({ singMid with inv_calls := 1 } : MatrixService).leontief_inverse_cache = none ∧
    ({ singMid with inv_calls := 1 } : MatrixService).technical_coefficients_cache
      = some ((get_technical_coefficients singS).2) := by
  refine ⟨gli_sing, ?_, ?_⟩
  · exact (claim9_failed_inversion_preserves_caches singS _ () gli_sing).1
  · exact (claim9_failed_inversion_preserves_caches singS _ () gli_sing).2.1

/-- C10: when the two frames' row-label sequences differ, the first
`get_io_matrix` call permanently replaces the stored final-demand frame
with a version reindexed to the consumption frame's row order (rows for
labels absent from the final demand become all-`NaN`), and every
subsequent operation — `get_final_demand_matrix` and the baseline row sums
of `calculate_output_scenarios` included — observes the reindexed data. -/
theorem claim10_reindex_frame_effect (s : MatrixService)
    (hio : s.io_matrix_cache = none)
    (hne : s.ic_df.rowLabels ≠ s.fd_df.rowLabels) :
    (get_io_matrix s).1.fd_df = reindexDf s.fd_df s.ic_df.rowLabels ∧
    get_final_demand_matrix (get_io_matrix s).1 = reindexDf s.fd_df s.ic_df.rowLabels ∧
    (get_io_matrix s).2 = hconcat s.ic_df (reindexDf s.fd_df s.ic_df.rowLabels) ∧
    (∀ i : Nat, i < s.ic_df.rowLabels.length →
      s.ic_df.rowLabels.getD i (.num 0) ∉ s.fd_df.rowLabels →
      (reindexDf s.fd_df s.ic_df.rowLabels).data.getD i []
        = List.replicate s.fd_df.colLabels.length none) ∧
    (∀ (fds : List Df) (s2 : MatrixService) (L : DfQ),
      get_leontief_inverse (get_io_matrix s).1 = (s2, .ok L) →
      calculate_output_scenarios (get_io_matrix s).1 fds
        = (s2, .ok ((List.range fds.length).map fun k =>
          { scen := k + 1
            final_demand := (fds.getD k ⟨[], [], []⟩).data
            total_output := listMatVec L.data ((fds.getD k ⟨[], [], []⟩).data.map pdSum)
            output_diff := List.zipWith (· - ·)
              (listMatVec L.data ((fds.getD k ⟨[], [], []⟩).data.map pdSum))
              ((reindexDf s.fd_df s.ic_df.rowLabels).data.map pdSum) }))) := by
  have hfd : (get_io_matrix s).1.fd_df = reindexDf s.fd_df s.ic_df.rowLabels := by
    simp only [get_io_matrix, hio, if_neg hne]
  refine ⟨hfd, hfd, ?_, ?_, ?_⟩
  · simp only [get_io_matrix, hio, if_neg hne]
  · intro i hi hmem
    rw [reindexDf]
    show ((s.ic_df.rowLabels.map _).getD i []) = _
    rw [getD_map_of_lt _ _ i [] (.num 0) hi]
    rw [List.findIdx?_eq_none_iff.mpr]
    intro x hx
    simp only [decide_eq_false_iff_not]
    intro hxe
    exact hmem (hxe ▸ hx)
  · intro fds s2 L hg
    have hbase : s2.fd_df = reindexDf s.fd_df s.ic_df.rowLabels := by
      have h1 : (get_leontief_inverse (get_io_matrix s).1).1.fd_df
          = (get_io_matrix s).1.fd_df :=
        gli_fd_pres (gio_cache_pop s)
      rw [hg] at h1
      rw [← hfd]
      exact h1
    rw [scen_of fds hg, hbase]

/-- C10 (witness): the misaligned engine — consumption rows `["A","B"]`,
final-demand rows `["A","C"]`: after the first `get_io_matrix`, the stored
final demand is reindexed to `["A","B"]` with an all-`NaN` row for `"B"`,
and the scenario baseline uses the reindexed row sums `[4, 0]`. -/
theorem claim10_witness :
    misS.ic_df.rowLabels ≠ misS.fd_df.rowLabels ∧
    (get_io_matrix misS).1.fd_df = misFdRe ∧
    get_final_demand_matrix (get_io_matrix misS).1 = misFdRe ∧
    misFdRe.data.getD 1 [] = [none] ∧
    calculate_output_scenarios (get_io_matrix misS).1 [scenFd]
      = (misWarm, .ok [⟨1, scenFd.data, [4, 8], [0, 8]⟩]) := by
  have hne : misS.ic_df.rowLabels ≠ misS.fd_df.rowLabels := by
    norm_num +decide [misS]
  have h := claim10_reindex_frame_effect misS rfl hne
  have hre : reindexDf misS.fd_df misS.ic_df.rowLabels = misFdRe := by
    norm_num +decide [reindexDf, misS, misFdRe, List.findIdx?]
  have hstate : (get_io_matrix misS).1 = misIoS := by
    norm_num +decide [get_io_matrix, misS, misIoS, misIO, misFdRe, reindexDf, hconcat,
      List.findIdx?]
  refine ⟨hne, hre ▸ h.1, hre ▸ h.2.1, by norm_num [misFdRe], ?_⟩
  have hsc := h.2.2.2.2 [scenFd] misWarm misL (by rw [hstate]; exact gli_misIoS)
  rw [hsc, hre]
  norm_num [scenFd, misL, lMis, misFdRe, listMatVec, dotL, pdSum, List.ofFn_succ,
    List.range_succ]

/-- Concrete evaluation: the full matrix product of the equal-output engine's
Leontief inverse with the two-column final-demand frame. -/
theorem dfDot_eqL_fd2cols : dfDot eqL fd2cols = some O4 := by
  have hm0 : ((fd2cols.data.map (fun br : List (Option ℚ) => br.getD 0 none)).mapM
      (fun c => c)) = some [1, 0] := mapM_id_eq_some.mpr rfl
  have hm1 : ((fd2cols.data.map (fun br : List (Option ℚ) => br.getD 1 none)).mapM
      (fun c => c)) = some [0, 0] := mapM_id_eq_some.mpr rfl
  rw [dfDot, if_pos (show eqL.colLabels = fd2cols.rowLabels from rfl)]
  rw [show List.range fd2cols.colLabels.length = [0, 1] from rfl]
  rw [show eqL.data = lEq from rfl, lEq]
  simp only [List.map_cons, List.map_nil, hm0, hm1, Option.map_some]
  norm_num [O4, eqL, fd2cols, dotL, List.ofFn_succ, Df.mk.injEq]

/-- C4 (counterexample): `calculate_output_with_new_fd` does not reduce a
multi-column final-demand frame to its row-sum vector: on a two-column
frame it returns the full two-column matrix product `L · F`, not the
single-column vector `L · y` of the claim. -/
theorem claim4_counterexample :
    calculate_output_with_new_fd_df eqWarm fd2cols = (eqWarm, .ok O4) ∧
    specComputeOutput eqL fd2cols = [90/77, 20/77] ∧
    O4.data ≠ (specComputeOutput eqL fd2cols).map (fun v => [some v]) := by
  have hg : get_leontief_inverse eqWarm = (eqWarm, .ok eqL) := rfl
  have hspec : specComputeOutput eqL fd2cols = [90/77, 20/77] := by
    norm_num [specComputeOutput, listMatVec, dotL, pdSum, eqL, lEq, fd2cols, List.ofFn_succ]
  refine ⟨covnf_df_of hg dfDot_eqL_fd2cols, hspec, ?_⟩
  rw [hspec]
  norm_num [O4]

/-- C4 (amended): `compute_output` returns the full matrix product of the
Leontief inverse with the supplied final-demand frame; the row sums of
that product equal the Leontief inverse applied to the frame's row-sum
vector.  `calculate_output_scenarios` performs the inversion at most once
regardless of the number of scenarios, computes each scenario's total
output as the single cached Leontief inverse times that scenario's
row-sum vector, and reports each output change as that total output minus
the stored baseline final demand's row sums. -/
theorem claim4_output_and_shared_inversion :
    (∀ (s s1 : MatrixService) (F O : Df) (Fq : List (List ℚ)),
      F.data = Fq.map (fun r => r.map some) →
      (∀ r ∈ Fq, r.length = F.colLabels.length) →
      calculate_output_with_new_fd_df s F = (s1, .ok O) →
      ∃ L : DfQ, get_leontief_inverse s = (s1, .ok L) ∧
        O.data.map pdSum = specComputeOutput L F) ∧
    (∀ (s s1 : MatrixService) (L : DfQ) (fds : List Df),
      get_leontief_inverse s = (s1, .ok L) →
      s1.inv_calls ≤ s.inv_calls + 1 ∧
      calculate_output_scenarios s fds = (s1, .ok ((List.range fds.length).map fun k =>
        { scen := k + 1
          final_demand := (fds.getD k ⟨[], [], []⟩).data
          total_output := specComputeOutput L (fds.getD k ⟨[], [], []⟩)
          output_diff := List.zipWith (· - ·)
            (specComputeOutput L (fds.getD k ⟨[], [], []⟩))
            (s1.fd_df.data.map pdSum) }))) := by
  constructor
  · intro s s1 F O Fq hF hFrect hrun
    obtain ⟨L, hg, hd⟩ := covnf_df_ok hrun
    exact ⟨L, hg, dfDot_rowsum L F Fq O hF hFrect hd⟩
  · intro s s1 L fds hg
    refine ⟨?_, ?_⟩
    · have h := gli_inv_calls_le s
      rw [hg] at h
      exact h
    · exact scen_of fds hg

/-- C4 (witness): the amended theorem at the warm equal-output engine and
the two-column frame. -/
theorem claim4_witness :
    (get_leontief_inverse eqWarm = (eqWarm, .ok eqL) ∧
      O4.data.map pdSum = specComputeOutput eqL fd2cols) ∧
    eqWarm.inv_calls ≤ eqWarm.inv_calls + 1 ∧
    calculate_output_scenarios eqWarm [fd2cols]
      = (eqWarm, .ok [⟨1, fd2cols.data, [90/77, 20/77], [-449/77, -519/77]⟩]) := by
  have hg : get_leontief_inverse eqWarm = (eqWarm, .ok eqL) := rfl
  have hrun : calculate_output_with_new_fd_df eqWarm fd2cols = (eqWarm, .ok O4) :=
    covnf_df_of hg dfDot_eqL_fd2cols
  obtain ⟨L, hg2, hsum⟩ := claim4_output_and_shared_inversion.1 eqWarm eqWarm fd2cols O4
    [[1, 0], [0, 0]] (by norm_num [fd2cols]) (by intro r hr; fin_cases hr <;> rfl) hrun
  have hLeq : L = eqL := by
    rw [hg] at hg2
    simp only [Prod.mk.injEq, Except.ok.injEq] at hg2
    exact hg2.2.symm
  obtain ⟨hcalls, hscen⟩ := claim4_output_and_shared_inversion.2 eqWarm eqWarm eqL [fd2cols] hg
  refine ⟨⟨hg, hLeq ▸ hsum⟩, hcalls, ?_⟩
  rw [hscen]
  norm_num [specComputeOutput, listMatVec, dotL, pdSum, eqL, lEq, fd2cols, eqWarm, eqS,
    List.ofFn_succ, List.range_succ]

/-- `get_economic_multipliers` on a cold multiplier cache: delegates to the
Leontief inverse and caches its column sums. -/
theorem gem_of {s s1 : MatrixService} {L : DfQ}
    (hc : s.economic_multipliers_cache = none)
    (hg : get_leontief_inverse s = (s1, .ok L)) :
    get_economic_multipliers s
      = ({ s1 with economic_multipliers_cache := some (Mults.mk (colSums L.data)
            (colSums L.data) (L.data.length, (L.data.headD []).length)) },
         .ok (Mults.mk (colSums L.data) (colSums L.data)
            (L.data.length, (L.data.headD []).length))) := by
  simp only [get_economic_multipliers, hc, hg]

theorem gem_sector :
    get_economic_multipliers sectorWarm = (sectorWarmM, .ok mults7) := by
  have hcs : colSums sectorL.data = [1005/704, 21/8, 783/352] := by
    norm_num [colSums, sectorL, lSample, List.range_succ]
  rw [gem_of rfl (show get_leontief_inverse sectorWarm = (sectorWarm, .ok sectorL) from rfl),
      hcs]
  rfl

theorem gtfu7 : get_total_final_use sectorWarmM chg7
    = ({ sectorWarmM with io_matrix_cache := some io7 }, ⟨secLabels, [950, 1050, 675]⟩) := by
  have hsum : io7.data.map pdSum = [950, 1050, 675] := by
    norm_num [io7, pdSum]
  show ({ sectorWarmM with io_matrix_cache := some io7 },
        ({ labels := secLabels, vals := io7.data.map pdSum } : Ser)) = _
  rw [hsum]

theorem gft7_ff : get_fd_table sectorWarmM chg7 false false = (sectorWarmM, fdChg7) := by
  rw [get_fd_table_nontfu (by norm_num [chg7]) (by decide)]
  rfl

theorem gft7_tf : get_fd_table sectorWarmM chg7 true false
    = ({ sectorWarmM with io_matrix_cache := some io7 }, bundle7.changed_fd_with_tfu) := by
  rw [get_fd_table, gtfu7]
  rfl

theorem dfDot_sectorL_fdChg7 : dfDot sectorL fdChg7 = some newOut7 := by
  have hm0 : ((fdChg7.data.map (fun br : List (Option ℚ) => br.getD 0 none)).mapM
      (fun c => c)) = some [600, 500, 300] := mapM_id_eq_some.mpr rfl
  rw [dfDot, if_pos (show sectorL.colLabels = fdChg7.rowLabels from rfl)]
  rw [show List.range fdChg7.colLabels.length = [0] from rfl]
  rw [show sectorL.data = lSample from rfl, lSample]
  simp only [List.map_cons, List.map_nil, hm0, Option.map_some]
  norm_num [newOut7, sectorL, fdChg7, dotL, List.ofFn_succ, Df.mk.injEq]

/-- The ok-path of `IOService.calculate_output`, step by step. -/
theorem io_calc_of {s sT s2 s3 s4 s5 s6 : MatrixService} {A : Df} {L : DfQ} {m : Mults}
    {cs : List ChangeConf} {fd fdT output io6 : Df}
    (hne : cs ≠ [])
    (hT : get_technical_coefficients s = (sT, A))
    (hL : get_leontief_inverse sT = (s2, .ok L))
    (hM : get_economic_multipliers s2 = (s3, .ok m))
    (hF : get_fd_table s3 cs false false = (s3, fd))
    (hFT : get_fd_table s3 cs true false = (s4, fdT))
    (hty : check_change_fd_type cs = .ok .component_change)
    (hOut : calculate_output_with_new_fd_df s4 fd = (s5, .ok output))
    (hFin : get_io_matrix s5 = (s6, io6)) :
    io_calculate_output s cs = (s6, .ok
      { technical_coefficients := A
        leontief_inverse := L
        multipliers := m
        io_matrix := io6
        new_ic_matrix := multiplyRows A (output.data.map pdSum)
        changed_fd_with_tfu := fdT
        new_output := output
        changed_fd_in_perc := percentDf output fd }) := by
  simp only [io_calculate_output, if_neg hne, hT, hL, hM, hF, hFT, hty, hOut, hFin]

/-- The run of `calculate_output` on the warm labelled engine and `chg7`. -/
theorem io_calc_chg7 : io_calculate_output sectorWarm chg7 = (sector7End, .ok bundle7) := by
  have hsum : newOut7.data.map pdSum = [11460/11, 10980/11, 8760/11] := by
    norm_num [newOut7, pdSum]
  have h := io_calc_of (s := sectorWarm)
    (show chg7 ≠ [] by norm_num [chg7])
    (rfl : get_technical_coefficients sectorWarm = (sectorWarm, sectorA))
    (rfl : get_leontief_inverse sectorWarm = (sectorWarm, .ok sectorL))
    gem_sector gft7_ff gft7_tf rfl
    (covnf_df_of (rfl : get_leontief_inverse
        { sectorWarmM with io_matrix_cache := some io7 }
      = ({ sectorWarmM with io_matrix_cache := some io7 }, .ok sectorL)) dfDot_sectorL_fdChg7)
    (rfl : get_io_matrix { sectorWarmM with io_matrix_cache := some io7 }
      = ({ sectorWarmM with io_matrix_cache := some io7 }, io7))
  rw [h, hsum]
  have hmul : multiplyRows sectorA [11460/11, 10980/11, 8760/11] = bundle7.new_ic_matrix := by
    norm_num [multiplyRows, sectorA, bundle7, Df.mk.injEq]
  have hperc : percentDf newOut7 fdChg7 = bundle7.changed_fd_in_perc := by
    norm_num +decide [percentDf, newOut7, fdChg7, bundle7, Df.mk.injEq]
  rw [hmul, hperc]
  rfl

/-- C7: in the result of `IOService.calculate_output` on a component-change
batch, the `changed_fd_in_perc` table is the percent change of the new
output relative to the **changed** final-demand frame (the stored frame
with the batch applied), not relative to the original final demand: each
cell is `(output − changed_fd) / changed_fd · 100`. -/
theorem claim7_percent_vs_changed_fd {s s1 : MatrixService} {changes : List ChangeConf}
    {b : CalcBundle}
    (hal : s.ic_df.rowLabels = s.fd_df.rowLabels)
    (hty : check_change_fd_type changes = .ok .component_change)
    (hrun : io_calculate_output s changes = (s1, .ok b)) :
    b.changed_fd_in_perc = percentDf b.new_output (applyChanges s.fd_df changes) := by
  obtain ⟨hne, htfu⟩ := check_component hty
  have hfdT : (get_technical_coefficients s).1.fd_df = s.fd_df := gtc_fd_aligned hal
  have hicT : (get_technical_coefficients s).1.ic_df = s.ic_df := gtc_ic s
  have halT : (get_technical_coefficients s).1.ic_df.rowLabels
      = (get_technical_coefficients s).1.fd_df.rowLabels := by rw [hfdT, hicT]; exact hal
  simp only [io_calculate_output, if_neg hne] at hrun
  rcases hL : get_leontief_inverse (get_technical_coefficients s).1 with ⟨s2, rL⟩
  rw [hL] at hrun
  have hfd2 : s2.fd_df = s.fd_df := by
    have h := gli_fd_aligned halT
    simp only [hL] at h
    exact h.trans hfdT
  have hic2 : s2.ic_df = s.ic_df := by
    have h := gli_ic (get_technical_coefficients s).1
    simp only [hL] at h
    exact h.trans hicT
  cases rL with
  | error e => simp at hrun
  | ok L =>
    simp only at hrun
    rcases hM : get_economic_multipliers s2 with ⟨s3, rM⟩
    rw [hM] at hrun
    have hfd3 : s3.fd_df = s.fd_df := by
      have h := gem_fd_aligned (s := s2) (by rw [hic2, hfd2]; exact hal)
      simp only [hM] at h
      exact h.trans hfd2
    cases rM with
    | error e => simp at hrun
    | ok m =>
      simp only at hrun
      rw [hty] at hrun
      simp only at hrun
      rw [get_fd_table_nontfu (s := s3) hne htfu] at hrun
      simp only at hrun
      rcases hFT : get_fd_table s3 changes true false with ⟨s4, F4⟩
      rw [hFT] at hrun
      simp only at hrun
      rcases hOut : calculate_output_with_new_fd_df s4 (applyChanges s3.fd_df changes)
        with ⟨s5, rO⟩
      rw [hOut] at hrun
      cases rO with
      | error e => simp at hrun
      | ok output =>
        simp only at hrun
        rcases hFin : get_io_matrix s5 with ⟨s6, io6⟩
        rw [hFin] at hrun
        simp only [Prod.mk.injEq, Except.ok.injEq] at hrun
        obtain ⟨hs1, hb⟩ := hrun
        rw [← hb]
        show percentDf output (applyChanges s3.fd_df changes)
            = percentDf output (applyChanges s.fd_df changes)
        rw [hfd3]

/-- C7 (counterexample): on the warm labelled sample engine, changing
Agriculture's final demand to 600 yields a percent-change cell of
`810/11 ≈ 73.6` (computed against the changed demand 600), while the
percent change against the original demand 400 would be `1765/11 ≈ 160.5`. -/
theorem claim7_counterexample :
    io_calculate_output sectorWarm chg7 = (sector7End, .ok bundle7) ∧
    bundle7.changed_fd_in_perc.cell 0 0 = some (810/11) ∧
    (percentDf bundle7.new_output sectorWarm.fd_df).cell 0 0 = some (1765/11) ∧
    ((810 : ℚ)/11) ≠ 1765/11 := by
  refine ⟨io_calc_chg7, by norm_num [Df.cell, bundle7], ?_, by norm_num⟩
  norm_num +decide [percentDf, Df.cell, bundle7, sectorWarm, sectorS]

/-- C7 (witness): the percent theorem at the warm labelled engine and the
single Agriculture change. -/
theorem claim7_witness :
    bundle7.changed_fd_in_perc
      = percentDf bundle7.new_output (applyChanges sectorWarm.fd_df chg7) :=
  claim7_percent_vs_changed_fd rfl rfl io_calc_chg7

end LeontiefModel
